import Mathlib

/-!
Verification development for the prunner pipeline scheduler.

This file gives a shallow embedding of the scheduler core (`prunner.go`),
the custom task runner (`taskctl/runner.go`) and the output store
(`taskctl/output_store.go`), and proves properties of the embedded code.

Modelling conventions:
* Go maps keyed by `uuid.UUID` or `string` become Lean functions out of `Nat`
  (job ids are drawn from a fresh-id counter, standing for the fresh UUIDs of
  `uuid.NewV4`) or `String`, with pointwise update.
* Go `time.Time` values are abstracted to a logical clock `Nat` held in the
  runner state; no proved property depends on concrete times.
* Go `error` values are abstracted to their message: `Option String`.
* The shared mutable `*pipelineJob` pointers of the Go code become a single
  id-indexed job heap `jobs : Nat → Option PipelineJob`; the
  `jobsByPipeline` and `waitListByPipeline` maps hold job ids.
* The single-slot coalescing persist channel becomes a `persistQueued` flag:
  a non-blocking send on a 1-buffered channel either fills the slot or is
  dropped, which is exactly setting the flag to `true`.
-/

namespace Prunner

/-- Queue strategy of a pipeline definition (`definition.QueueStrategy`).
The `definition` package is not part of the analyzed sources; the spec fixes
its value set to append / replace, with the loader rejecting anything else. -/
inductive QueueStrategy where
  | append
  | replace
deriving DecidableEq, Repr

/-- Task definition (`definition.TaskDef`): the fields used by `prunner.go`
(`Script`, `DependsOn`, `AllowFailure`). -/
structure TaskDef where
  script : List String
  dependsOn : List String
  allowFailure : Bool
deriving DecidableEq, Repr

/-- Pipeline definition: the fields of `definition.PipelineDef` read by
`prunner.go` (`Concurrency`, `QueueLimit`, `QueueStrategy`, `Tasks`).
Tasks are an association list standing for the Go map from task name to
`TaskDef` (names are unique). -/
structure PipelineDef where
  concurrency : Nat
  queueLimit : Option Nat
  queueStrategy : QueueStrategy
  tasks : List (String × TaskDef)
deriving DecidableEq, Repr

/-- In-memory task state of a job (`jobTask` in `prunner.go`): an embedded
`TaskDef` plus name and runtime fields. `Status` is the string produced by
`toStatus`; `ExitCode` is Go `int16`, kept as `Int` (assignments that cast in
the source apply `toInt16` below); `Error` is the error message. The Go field
`End` is called `endTime` because `end` is reserved in Lean. -/
structure JTask where
  name : String
  script : List String
  dependsOn : List String
  allowFailure : Bool
  status : String
  start : Option Nat
  endTime : Option Nat
  skipped : Bool
  exitCode : Int
  errored : Bool
  error : Option String
deriving DecidableEq, Repr

/-- In-memory job (`pipelineJob` in `prunner.go`). The Go field `End` is
called `endTime` because `end` is reserved in Lean. `LastError` is the error
message. -/
structure PipelineJob where
  id : Nat
  pipeline : String
  completed : Bool
  canceled : Bool
  created : Nat
  start : Option Nat
  endTime : Option Nat
  user : String
  tasks : List JTask
  lastError : Option String
deriving DecidableEq, Repr

/-- Running predicate of `pipelineJob.isRunning`:
start set, not completed, not canceled. -/
def PipelineJob.isRunning (j : PipelineJob) : Bool :=
  j.start.isSome && !j.completed && !j.canceled

/-- Persisted task record (`persistedTask`), exactly the fields written by
`saveToStore`: all `jobTask` fields with `Error` as an optional string. -/
structure PersistedTask where
  name : String
  script : List String
  dependsOn : List String
  allowFailure : Bool
  status : String
  start : Option Nat
  endTime : Option Nat
  skipped : Bool
  exitCode : Int
  errored : Bool
  error : Option String
deriving DecidableEq, Repr

/-- Persisted job record (`persistedJob`), exactly the fields written by
`saveToStore`: `ID`, `Pipeline`, `Completed`, `Canceled`, `Created`, `Start`,
`End`, `User`, `Tasks` — note there is no `LastError` field. -/
structure PersistedJob where
  id : Nat
  pipeline : String
  completed : Bool
  canceled : Bool
  created : Nat
  start : Option Nat
  endTime : Option Nat
  user : String
  tasks : List PersistedTask
deriving DecidableEq, Repr

/-- Go `errToStrPtr`: a nil error maps to nil, otherwise to its message.
With errors abstracted to their message this is the identity. -/
def errToStrPtr (e : Option String) : Option String := e

/-- Go `strPtrToErr`: nil or the empty string map to a nil error, any other
string to `errors.New` of it (abstracted to the message). -/
def strPtrToErr (s : Option String) : Option String :=
  match s with
  | none => none
  | some str => if str = "" then none else some str

end Prunner

namespace Prunner

/-! ## String ordering

Go compares strings lexicographically (`sort.Strings`, `<` in the final task
sort). This is modelled by an executable lexicographic comparison on the
character sequences; for the ASCII task names at hand this coincides with
Go's byte-wise order. -/

/-- Lexicographic strict order on character lists, by code point. -/
def lexLt : List Char → List Char → Bool
  | _, [] => false
  | [], _ :: _ => true
  | x :: xs, y :: ys =>
    if x.toNat < y.toNat then true
    else if y.toNat < x.toNat then false
    else lexLt xs ys

/-- Go string `<`. -/
def strLtb (a b : String) : Bool := lexLt a.data b.data

/-- Go string `<=` (the negation of `>` since the order is total). -/
def strLeb (a b : String) : Bool := !(strLtb b a)

/-- Propositional form of `strLeb`, used as the sorting relation. -/
def StrLE (a b : String) : Prop := strLeb a b = true

instance : DecidableRel StrLE := fun _ _ => instDecidableEqBool _ _

/-- Go `sort.Strings`: sort a string slice ascending. -/
def sortStrings (l : List String) : List String := List.insertionSort StrLE l

/-! ## Topological ordering (`sortTasksByDependencies` in `prunner.go`) -/

/-- Incoming-edge set of a task name: the `DependsOn` list of the (unique)
task with that name, as built into `tmpNodes` by `sortTasksByDependencies`
(the Go code stores it as a set; removal below deletes all occurrences, so a
plain list is equivalent). Names not present get an empty set. -/
def depsOf (jt : List JTask) (m : String) : List String :=
  match jt.find? (fun t => t.name == m) with
  | some t => t.dependsOn
  | none => []

/-- Total number of remaining incoming edges, the termination measure of the
Kahn loop. -/
def sumInc (names : List String) (inc : String → List String) : Nat :=
  (names.map (fun m => (inc m).length)).sum

/-- Helper: removing a present element strictly shrinks a list. -/
theorem length_filter_ne_lt {l : List String} {n : String} (h : n ∈ l) :
    (l.filter (fun u => u != n)).length < l.length := by
  induction l with
  | nil => cases h
  | cons x xs ih =>
    by_cases hx : x = n
    · subst hx
      rw [List.filter_cons, if_neg (by simp)]
      exact Nat.lt_succ_of_le (List.length_filter_le _ _)
    · rw [List.filter_cons, if_pos (by simp [hx])]
      have hmem : n ∈ xs := by
        rcases List.mem_cons.mp h with h1 | h1
        · exact absurd h1.symm hx
        · exact h1
      simpa using ih hmem

/-- Helper: removing an absent element leaves a list unchanged. -/
theorem filter_ne_eq_self {l : List String} {n : String} (h : n ∉ l) :
    l.filter (fun u => u != n) = l := by
  apply List.filter_eq_self.mpr
  intro a ha
  simp only [bne_iff_ne, ne_eq]
  rintro rfl
  exact h ha

/-- Termination bound for one Kahn iteration: newly enqueued nodes are
bounded by the incoming edges removed. -/
theorem sumInc_filter_step (names : List String) (inc : String → List String) (n : String) :
    (names.filter (fun m => (inc m).contains n && (((inc m).filter (fun u => u != n)).isEmpty))).length
      + sumInc names (fun m => (inc m).filter (fun u => u != n))
    ≤ sumInc names inc := by
  induction names with
  | nil => simp [sumInc]
  | cons m names ih =>
    simp only [sumInc, List.map_cons, List.sum_cons] at ih ⊢
    by_cases hmem : n ∈ inc m
    · have hlt := length_filter_ne_lt hmem
      cases hfilt : (inc m).contains n && (((inc m).filter (fun u => u != n)).isEmpty) with
      | false =>
        rw [List.filter_cons, if_neg (by rw [hfilt]; exact Bool.false_ne_true)]
        omega
      | true =>
        rw [List.filter_cons, if_pos hfilt]
        simp only [List.length_cons]
        omega
    · have heq := filter_ne_eq_self hmem
      have hcont : (inc m).contains n = false := by
        simpa using hmem
      rw [List.filter_cons, if_neg (by rw [hcont, Bool.false_and]; exact Bool.false_ne_true), heq]
      omega

/-- Loop of Kahn's algorithm as implemented by `sortTasksByDependencies`:
pop the head `n` of the (sorted) queue, assign it the next ordinal `i` in the
order map, delete `n` from every node's incoming set, append every node whose
incoming set thereby becomes empty, and re-sort the queue. The Go queue is
appended in map-iteration order and then sorted, so sorting the concatenation
gives the same queue. -/
def kahnLoop (names : List String) (inc : String → List String) (ord : String → Nat)
    (i : Nat) (queue : List String) : String → Nat :=
  match queue with
  | [] => ord
  | n :: rest =>
    kahnLoop names
      (fun m => (inc m).filter (fun u => u != n))
      (fun m => if m = n then i else ord m)
      (i + 1)
      (sortStrings (rest ++ names.filter
        (fun m => (inc m).contains n && (((inc m).filter (fun u => u != n)).isEmpty))))
termination_by queue.length + sumInc names inc
decreasing_by
  have hsort : (sortStrings (rest ++ names.filter
      (fun m => (inc m).contains n && (((inc m).filter (fun u => u != n)).isEmpty)))).length
      = (rest ++ names.filter
        (fun m => (inc m).contains n && (((inc m).filter (fun u => u != n)).isEmpty))).length :=
    (List.perm_insertionSort StrLE _).length_eq
  have hstep := sumInc_filter_step names inc n
  simp only [hsort, List.length_append, List.length_cons]
  omega

/-- Initial queue of the Kahn loop: all names with an empty incoming set,
sorted ascending (`sort.Strings(queue)` after building the graph). -/
def initialQueue (jt : List JTask) : List String :=
  sortStrings ((jt.filter (fun t => t.dependsOn.isEmpty)).map (fun t => t.name))

/-- Ordinal map computed by the Kahn loop of `sortTasksByDependencies`
(the `order` field of `tmpNodes` after the loop; unvisited nodes keep the Go
zero value 0). -/
def kahnOrd (jt : List JTask) : String → Nat :=
  kahnLoop (jt.map (fun t => t.name)) (depsOf jt) (fun _ => 0) 0 (initialQueue jt)

/-- Comparator of the final `sort.Slice` in `sortTasksByDependencies`, in
reflexive form: by ordinal, ties by name ascending. -/
def taskLE (ord : String → Nat) (a b : JTask) : Prop :=
  ord a.name < ord b.name ∨ (ord a.name = ord b.name ∧ StrLE a.name b.name)

instance (ord : String → Nat) (a b : JTask) : Decidable (taskLE ord a b) := by
  unfold taskLE
  infer_instance

instance (ord : String → Nat) : DecidableRel (taskLE ord) := fun _ _ => inferInstance

/-- Go `jobTasks.sortTasksByDependencies`: Kahn ordinals, then sort by
(ordinal, name). The Go `sort.Slice` is unstable with the strict comparator
`order <, ties name <`; since distinct tasks of a job have distinct names the
sorted permutation is unique, and is modelled by insertion sort with the
reflexive comparator. -/
def sortTasksByDependencies (jt : List JTask) : List JTask :=
  List.insertionSort (taskLE (kahnOrd jt)) jt

/-- Go `buildJobTasks`: one `jobTask` per definition entry with status
`waiting` (`toStatus(scheduler.StatusWaiting)`) and zero-valued runtime
fields, sorted by dependencies. The Go map iteration order is irrelevant
because the sort result is deterministic. -/
def buildJobTasks (tasks : List (String × TaskDef)) : List JTask :=
  sortTasksByDependencies (tasks.map (fun nt =>
    { name := nt.1, script := nt.2.script, dependsOn := nt.2.dependsOn,
      allowFailure := nt.2.allowFailure, status := "waiting", start := none,
      endTime := none, skipped := false, exitCode := 0, errored := false,
      error := none }))

/-! ## Output store (`taskctl/output_store.go`) -/

/-- Go `path.Join` on two components. The source calls `path.Join` on cleaned,
slash-free, non-dot components, where it concatenates with a separator and
drops empty components; this model covers exactly that behaviour. -/
def pathJoin (a b : String) : String :=
  if a = "" then b else if b = "" then a else a ++ "/" ++ b

/-- Path built by `OutputStore.buildPath`:
`path.Join(s.basePath, "logs", jobID, fmt.Sprintf("%s-%s.log", taskName, outputName))`. -/
def OutputStore.buildPath (basePath jobID taskName outputName : String) : String :=
  pathJoin (pathJoin (pathJoin basePath "logs") jobID)
    (taskName ++ "-" ++ outputName ++ ".log")

/-- Path at which `OutputStore.Writer` creates the log file: `Writer` calls
`s.buildPath(jobID, taskName, outputName)`. -/
def OutputStore.writerPath (basePath jobID taskName outputName : String) : String :=
  OutputStore.buildPath basePath jobID taskName outputName

/-- Path at which `OutputStore.Reader` opens the log file: `Reader` calls
`s.buildPath(jobID, taskName, outputName)`. -/
def OutputStore.readerPath (basePath jobID taskName outputName : String) : String :=
  OutputStore.buildPath basePath jobID taskName outputName

/-- Base path with which the `run` command constructs the output store:
`taskctl.NewOutputStore(path.Join(c.String("data"), "logs"))` in `prunner.go`. -/
def runOutputStoreBasePath (dataDir : String) : String :=
  pathJoin dataDir "logs"

/-! ## Task runner (`taskctl/runner.go`) -/

/-- Cast of a Go `int` to `int16`, as in `t.ExitCode = int16(status)`. -/
def toInt16 (n : Int) : Int :=
  (n + 32768) % 65536 - 32768

/-- Task state threaded through `TaskRunner.execute` and `TaskRunner.Run`:
the fields of `task.Task` that those functions read or write. -/
structure ExecTask where
  name : String
  allowFailure : Bool
  skipped : Bool
  errored : Bool
  exitCode : Int
  error : Option String
  startedAt : Option Nat
  endedAt : Option Nat
deriving DecidableEq, Repr

/-- Outcome of executing one command of a task's script, the oracle for the
external `executor.Execute` call inside `TaskRunner.execute`: success with
captured output, a non-zero process exit (`executor.IsExitStatus` holds, with
the given status and error message), or any other execution error. -/
inductive CmdOutcome where
  | ok (output : String)
  | exitStatus (code : Int) (msg : String)
  | execFailure (msg : String)
deriving DecidableEq, Repr

/-- Loop of `TaskRunner.execute` over the compiled job chain: on an exit
status error the code records `t.ExitCode = int16(status)` and, if the task
allows failure, continues with the next command; otherwise (and on any other
error) it sets `Errored`, stores the error, stamps `End` and returns the
error. On normal completion it stamps `End` and returns nil. -/
def executeLoop (now : Nat) (t : ExecTask) : List CmdOutcome → ExecTask × Option String
  | [] => ({ t with endedAt := some now }, none)
  | c :: rest =>
    match c with
    | .ok _ => executeLoop now t rest
    | .exitStatus code msg =>
      let t1 := { t with exitCode := toInt16 code }
      if t.allowFailure then
        executeLoop now t1 rest
      else
        ({ t1 with errored := true, error := some msg, endedAt := some now }, some msg)
    | .execFailure msg =>
      ({ t with errored := true, error := some msg, endedAt := some now }, some msg)

/-- Go `TaskRunner.execute`: stamps `t.Start`, then runs the command chain. -/
def execute (now : Nat) (t : ExecTask) (cmds : List CmdOutcome) : ExecTask × Option String :=
  executeLoop now { t with startedAt := some now } cmds

/-- Deferred cleanup in `TaskRunner.Run`:
`if !t.Errored && !t.Skipped { t.ExitCode = 0 }`, applied when `Run` returns. -/
def runDeferredReset (t : ExecTask) : ExecTask :=
  if !t.errored && !t.skipped then { t with exitCode := 0 } else t

/-- Core of `TaskRunner.Run` for a plain task: the `execute` call and the
deferred exit-code reset, returning the task state after `Run` and `Run`'s
error result. Context setup, conditions, before/after hooks and the output
plumbing are external effects not modelled here; they do not touch the
`Errored` / `ExitCode` / `Error` fields this development reasons about. -/
def runTask (now : Nat) (t : ExecTask) (cmds : List CmdOutcome) : ExecTask × Option String :=
  let res := execute now t cmds
  (runDeferredReset res.1, res.2)

/-! ## Pipeline runner state machine (`pipelineRunner` in `prunner.go`)

All mutations of `jobsByID` / `jobsByPipeline` / `waitListByPipeline` happen
under the single runner lock, so the concurrent Go system is a sequential
interleaving of the locked critical sections; the state machine below has one
transition per critical section. -/

/-- Pipeline definitions map (`r.defs.Pipelines`), immutable after startup. -/
def Defs : Type := String → Option PipelineDef

/-- Guarded state of `pipelineRunner`. Job ids stand for the fresh UUIDs of
`uuid.NewV4`, drawn from the counter `nextId`. `now` is the abstract clock
read by `time.Now()`. `persistQueued` is the fill state of the 1-buffered
`persistRequests` channel. -/
structure RunnerState where
  nextId : Nat
  now : Nat
  jobs : Nat → Option PipelineJob
  jobsByPipeline : String → List Nat
  waitListByPipeline : String → List Nat
  persistQueued : Bool

/-- Admission action (`scheduleAction` in `prunner.go`). -/
inductive ScheduleAction where
  | start
  | queue
  | replace
  | noQueue
  | queueFull
deriving DecidableEq, Repr

/-- Error results of `ScheduleAsync`: undefined pipeline, `errNoQueue`,
`errQueueFull`. -/
inductive ScheduleError where
  | unknownPipeline
  | queueDisabled
  | queueFull
deriving DecidableEq, Repr

/-- Fresh runner state built by `newPipelineRunner` (before any load). -/
def initialState : RunnerState :=
  { nextId := 0, now := 0, jobs := fun _ => none, jobsByPipeline := fun _ => [],
    waitListByPipeline := fun _ => [], persistQueued := false }

/-- Go zero value of a pipeline definition, the result of reading
`r.defs.Pipelines[pipeline]` for an undefined pipeline (only
`resolveScheduleAction` does such an unchecked read; the zero queue strategy
is not `replace`, hence modelled as `append`). -/
def zeroPipelineDef : PipelineDef :=
  { concurrency := 0, queueLimit := none, queueStrategy := .append, tasks := [] }

/-- Unchecked definition lookup `r.defs.Pipelines[pipeline]`. -/
def pipelineDefOf (defs : Defs) (p : String) : PipelineDef :=
  (defs p).getD zeroPipelineDef

/-- Whether the job registered under `id` is running. -/
def isRunningId (s : RunnerState) (id : Nat) : Bool :=
  match s.jobs id with
  | some j => j.isRunning
  | none => false

/-- Go `pipelineRunner.runningJobsCount`: running jobs among
`jobsByPipeline[pipeline]`. -/
def runningJobsCount (s : RunnerState) (p : String) : Nat :=
  ((s.jobsByPipeline p).filter (fun id => isRunningId s id)).length

/-- Go `pipelineRunner.resolveScheduleAction`. -/
def resolveScheduleAction (defs : Defs) (s : RunnerState) (p : String) : ScheduleAction :=
  let pd := pipelineDefOf defs p
  if runningJobsCount s p ≥ pd.concurrency then
    if pd.queueLimit = some 0 then
      .noQueue
    else if pd.queueStrategy = .replace ∧ s.waitListByPipeline p ≠ [] then
      .replace
    else
      match pd.queueLimit with
      | some ql => if (s.waitListByPipeline p).length ≥ ql then .queueFull else .queue
      | none => .queue
  else
    .start

/-- Go `pipelineRunner.requestPersist`: non-blocking send on the 1-buffered
channel; either fills the slot or is dropped, i.e. the flag becomes true. -/
def requestPersist (s : RunnerState) : RunnerState :=
  { s with persistQueued := true }

/-- Write `waitListByPipeline[p]`. -/
def setWaitList (s : RunnerState) (p : String) (l : List Nat) : RunnerState :=
  { s with waitListByPipeline := fun q => if q = p then l else s.waitListByPipeline q }

/-- Go `pipelineRunner.startJob` on the registered job `id`: stamp
`job.Start = now` and spawn the execution goroutine (whose eventual
`jobCompleted` call is the `Step.complete` transition). The deferred
`requestPersist` runs on return. The defensive graph-build error branch is
not modelled: `buildPipelineGraph` only fails for invalid task graphs, which
the definition loader rejects before the runner ever sees them. -/
def startJob (s : RunnerState) (id : Nat) : RunnerState :=
  match s.jobs id with
  | none => requestPersist s
  | some j =>
    requestPersist
      { s with jobs := fun k => if k = id then some { j with start := some s.now } else s.jobs k }

/-- Loop of `startJobsOnWaitList` over the local `waitList` slice: while the
local list is non-empty and the admission rule yields `Start`, pop the head
and start it; on exit write the remaining local list back to the map. As in
Go, `resolveScheduleAction` reads the still-unwritten map entry during the
loop (its `Start` answer only depends on the running count). -/
def drainLoop (defs : Defs) (p : String) (s : RunnerState) : List Nat → RunnerState
  | [] => setWaitList s p []
  | id :: rest =>
    if resolveScheduleAction defs s p = .start then
      drainLoop defs p (startJob s id) rest
    else
      setWaitList s p (id :: rest)

/-- Go `pipelineRunner.startJobsOnWaitList`. -/
def startJobsOnWaitList (defs : Defs) (s : RunnerState) (p : String) : RunnerState :=
  drainLoop defs p s (s.waitListByPipeline p)

/-- Go `pipelineRunner.jobCompleted`: mark the job completed, stamp `End`,
record the scheduler error as `LastError`, then drain the pipeline's wait
list and request persistence. -/
def jobCompleted (defs : Defs) (s : RunnerState) (id : Nat) (err : Option String) : RunnerState :=
  match s.jobs id with
  | none => s
  | some j =>
    let s1 := { s with jobs := fun k =>
      (if k = id then some { j with completed := true, endTime := some s.now, lastError := err }
       else s.jobs k) }
    requestPersist (startJobsOnWaitList defs s1 j.pipeline)

/-- Registration common to all admitting branches of `ScheduleAsync`:
`r.jobsByID[id] = job; r.jobsByPipeline[pipeline] = append(...)`, with the
fresh-id counter advanced. -/
def registerJob (s : RunnerState) (job : PipelineJob) : RunnerState :=
  { s with
    nextId := s.nextId + 1,
    jobs := fun k => if k = job.id then some job else s.jobs k,
    jobsByPipeline := fun q =>
      if q = job.pipeline then s.jobsByPipeline job.pipeline ++ [job.id]
      else s.jobsByPipeline q }

/-- Job literal built by `ScheduleAsync`. -/
def newJob (s : RunnerState) (p user : String) (pd : PipelineDef) : PipelineJob :=
  { id := s.nextId, pipeline := p, completed := false, canceled := false,
    created := s.now, start := none, endTime := none, user := user,
    tasks := buildJobTasks pd.tasks, lastError := none }

/-- Go `pipelineRunner.ScheduleAsync`: the whole locked critical section,
returning the new state and the job id or admission error. UUID generation
cannot fail in the model. The deferred `requestPersist` runs last on every
admitting path. In the Go `Replace` branch `previousJob := waitList[len-1]`
would panic on an empty wait list; that branch is unreachable because the
action `Replace` requires a non-empty wait list, and the model then leaves
the state unchanged by the cancellation. -/
def ScheduleAsync (defs : Defs) (s : RunnerState) (p user : String) :
    RunnerState × Except ScheduleError Nat :=
  match defs p with
  | none => (s, .error .unknownPipeline)
  | some pd =>
    match resolveScheduleAction defs s p with
    | .noQueue => (s, .error .queueDisabled)
    | .queueFull => (s, .error .queueFull)
    | .queue =>
      let job := newJob s p user pd
      let s1 := registerJob s job
      (requestPersist (setWaitList s1 p (s1.waitListByPipeline p ++ [job.id])), .ok job.id)
    | .replace =>
      let job := newJob s p user pd
      let s1 := registerJob s job
      let wl := s1.waitListByPipeline p
      let s2 :=
        match wl.getLast? with
        | some prevId =>
          match s1.jobs prevId with
          | some prev =>
            { s1 with jobs := fun k =>
              if k = prevId then some { prev with canceled := true } else s1.jobs k }
          | none => s1
        | none => s1
      (requestPersist (setWaitList s2 p (wl.dropLast ++ [job.id])), .ok job.id)
    | .start =>
      let job := newJob s p user pd
      let s1 := registerJob s job
      (requestPersist (startJob s1 job.id), .ok job.id)

/-- One locked critical section of the running system. `complete` is guarded
by the fact that `jobCompleted` is invoked exactly once per started job, by
the goroutine spawned in `startJob` when `sched.Schedule` returns, so the
completed job exists, has started and is not yet completed. `advance` lets
the `time.Now()` clock move between sections. -/
inductive Step (defs : Defs) : RunnerState → RunnerState → Prop where
  | schedule (s : RunnerState) (p user : String) :
      Step defs s (ScheduleAsync defs s p user).1
  | complete (s : RunnerState) (id : Nat) (err : Option String) (j : PipelineJob)
      (hj : s.jobs id = some j) (hstart : j.start.isSome = true) (hcomp : j.completed = false) :
      Step defs s (jobCompleted defs s id err)
  | drain (s : RunnerState) (p : String) :
      Step defs s (startJobsOnWaitList defs s p)
  | advance (s : RunnerState) (t : Nat) :
      Step defs s { s with now := t }

/-- States reachable from the fresh runner by critical sections. -/
inductive Reachable (defs : Defs) : RunnerState → Prop where
  | init : Reachable defs initialState
  | step {s s' : RunnerState} : Reachable defs s → Step defs s s' → Reachable defs s'

/-- States reachable from a given state by critical sections. -/
inductive ReachableFrom (defs : Defs) (s : RunnerState) : RunnerState → Prop where
  | refl : ReachableFrom defs s s
  | step {t t' : RunnerState} : ReachableFrom defs s t → Step defs t t' → ReachableFrom defs s t'

/-! ## Persistence (`saveToStore`, `buildJobFromPersistedJob`,
`initialLoadFromStore` in `prunner.go`) -/

/-- Task projection written by `saveToStore`. -/
def persistTask (t : JTask) : PersistedTask :=
  { name := t.name, script := t.script, dependsOn := t.dependsOn,
    allowFailure := t.allowFailure, status := t.status, start := t.start,
    endTime := t.endTime, skipped := t.skipped, exitCode := t.exitCode,
    errored := t.errored, error := errToStrPtr t.error }

/-- Job projection written by `saveToStore`. `persistedJob` has no
`LastError` field: the job's `LastError` is not persisted. -/
def persistJob (j : PipelineJob) : PersistedJob :=
  { id := j.id, pipeline := j.pipeline, completed := j.completed,
    canceled := j.canceled, created := j.created, start := j.start,
    endTime := j.endTime, user := j.user, tasks := j.tasks.map persistTask }

/-- Task reconstruction inside `buildJobFromPersistedJob`. -/
def persistedTaskToJobTask (pt : PersistedTask) : JTask :=
  { name := pt.name, script := pt.script, dependsOn := pt.dependsOn,
    allowFailure := pt.allowFailure, status := pt.status, start := pt.start,
    endTime := pt.endTime, skipped := pt.skipped, exitCode := pt.exitCode,
    errored := pt.errored, error := strPtrToErr pt.error }

/-- Go `buildJobFromPersistedJob`. It assigns every `pipelineJob` field
except `LastError` and `Tasks` from the persisted record, then rebuilds the
tasks; `LastError` keeps its zero value nil. -/
def buildJobFromPersistedJob (pj : PersistedJob) : PipelineJob :=
  { id := pj.id, pipeline := pj.pipeline, completed := pj.completed,
    canceled := pj.canceled, created := pj.created, start := pj.start,
    endTime := pj.endTime, user := pj.user,
    tasks := pj.tasks.map persistedTaskToJobTask, lastError := none }

/-- Per-task rewrite of the recovery path in `initialLoadFromStore`:
`if jt.Status == "waiting" || jt.Status == "running" { jt.Status = "canceled" }`. -/
def cancelPendingTask (t : JTask) : JTask :=
  if t.status = "waiting" ∨ t.status = "running" then { t with status := "canceled" } else t

/-- Per-job body of the `initialLoadFromStore` loop: rebuild the job and, if
it appears to be still running, rewrite its pending tasks to `canceled` and
mark the job canceled. -/
def loadPersistedJob (pj : PersistedJob) : PipelineJob :=
  let job := buildJobFromPersistedJob pj
  if job.isRunning then
    { job with tasks := job.tasks.map cancelPendingTask, canceled := true }
  else
    job

/-! ## Spec-side reference definitions and concrete fixtures -/

/-- Admission rule exactly as the spec states it, for comparison with
`resolveScheduleAction`: Start if R is less than C; else RejectNoQueue if QL
is present and equals 0; else Replace if the strategy is replace and W is
positive; else RejectFull if QL is present and W is at least QL; else
Queue. -/
def specAdmissionRule (R W C : Nat) (QL : Option Nat) (strat : QueueStrategy) : ScheduleAction :=
  if R < C then .start
  else if QL = some 0 then .noQueue
  else if strat = .replace ∧ 0 < W then .replace
  else
    match QL with
    | some ql => if W ≥ ql then .queueFull else .queue
    | none => .queue

/-- Fixture task definition used by concrete witnesses. -/
def sampleTaskDef (deps : List String) : TaskDef :=
  { script := ["echo hi"], dependsOn := deps, allowFailure := false }

/-- Fixture definitions map used by concrete witnesses: pipeline `p` with
concurrency 1, queue limit 2, append strategy; pipeline `r` with
concurrency 1, no queue limit, replace strategy; pipeline `z` with
concurrency 1 and queue limit 0. -/
def sampleDefs : Defs := fun p =>
  if p = "p" then
    some { concurrency := 1, queueLimit := some 2, queueStrategy := .append,
           tasks := [("b", sampleTaskDef ["a"]), ("a", sampleTaskDef [])] }
  else if p = "r" then
    some { concurrency := 1, queueLimit := none, queueStrategy := .replace,
           tasks := [("a", sampleTaskDef [])] }
  else if p = "z" then
    some { concurrency := 1, queueLimit := some 0, queueStrategy := .append,
           tasks := [("a", sampleTaskDef [])] }
  else none

/-- Fixture: state after one schedule on pipeline `r` (the job starts). -/
def sampleR1 : RunnerState := (ScheduleAsync sampleDefs initialState "r" "u1").1

/-- Fixture: state after a second schedule on pipeline `r` (the job queues). -/
def sampleR2 : RunnerState := (ScheduleAsync sampleDefs sampleR1 "r" "u2").1

/-- Fixture: state after a third schedule on pipeline `r` (replace action). -/
def sampleR3 : RunnerState := (ScheduleAsync sampleDefs sampleR2 "r" "u3").1

/-- Fixture task in its initial state, used by the task runner witnesses. -/
def sampleExecTask (allowFailure : Bool) : ExecTask :=
  { name := "a", allowFailure := allowFailure, skipped := false, errored := false,
    exitCode := 0, error := none, startedAt := none, endedAt := none }

/-- Fixture persisted task with a given status. -/
def samplePersistedTask (status : String) : PersistedTask :=
  { name := "a", script := ["x"], dependsOn := [], allowFailure := false,
    status := status, start := none, endTime := none, skipped := false,
    exitCode := 0, errored := false, error := none }

/-- Fixture persisted job that reloads as running (crashed mid-execution). -/
def sampleRunningPJ : PersistedJob :=
  { id := 7, pipeline := "p", completed := false, canceled := false, created := 0,
    start := some 1, endTime := none, user := "u",
    tasks := [samplePersistedTask "done", samplePersistedTask "running"] }

/-! ## Runner state invariants -/

/-- Whether the job registered under `id` has started. -/
def jobStarted (s : RunnerState) (id : Nat) : Bool :=
  match s.jobs id with
  | some j => j.start.isSome
  | none => false

/-- Ids are bounded by the fresh-id counter and every stored job carries its
own id. -/
def JobIdsOK (s : RunnerState) : Prop :=
  ∀ id j, s.jobs id = some j → id < s.nextId ∧ j.id = id

/-- Every `jobsByPipeline` list is duplicate-free and holds registered jobs
of its pipeline. -/
def ByPipelineOK (s : RunnerState) : Prop :=
  ∀ p, (s.jobsByPipeline p).Nodup
    ∧ ∀ id ∈ s.jobsByPipeline p, ∃ j, s.jobs id = some j ∧ j.pipeline = p

/-- A job id sits correctly on the wait list of pipeline `p`: registered, of
that pipeline, not started, not completed, not canceled, and listed in
`jobsByPipeline` (spec invariant 1). -/
def WaitJobOK (s : RunnerState) (p : String) (id : Nat) : Prop :=
  ∃ j, s.jobs id = some j ∧ j.pipeline = p ∧ j.start = none
    ∧ j.completed = false ∧ j.canceled = false ∧ id ∈ s.jobsByPipeline p

/-- Every wait list is duplicate-free and holds well-placed waiting jobs. -/
def WaitListOK (s : RunnerState) : Prop :=
  ∀ p, (s.waitListByPipeline p).Nodup ∧ ∀ id ∈ s.waitListByPipeline p, WaitJobOK s p id

/-- Under the replace strategy a wait list never holds more than one job:
the queue action only fires on an empty wait list, and replace keeps the
length. -/
def ReplaceBound (defs : Defs) (s : RunnerState) : Prop :=
  ∀ p, (pipelineDefOf defs p).queueStrategy = QueueStrategy.replace →
    (s.waitListByPipeline p).length ≤ 1

/-- The concurrency bound (spec invariant 2). -/
def ConcurrencyOK (defs : Defs) (s : RunnerState) : Prop :=
  ∀ p, runningJobsCount s p ≤ (pipelineDefOf defs p).concurrency

/-- All runner invariants together. -/
def Inv (defs : Defs) (s : RunnerState) : Prop :=
  JobIdsOK s ∧ ByPipelineOK s ∧ WaitListOK s ∧ ReplaceBound defs s ∧ ConcurrencyOK defs s

/-- Job `a` is admitted before job `b` on a wait list. -/
def beforeOn (l : List Nat) (a b : Nat) : Prop :=
  List.Sublist [a, b] l

/-- Invariant behind the FIFO property: either `a` has already started, or
`b` has not started and can only sit on pipeline `p`'s wait list, behind
`a`. -/
def FifoInv (s : RunnerState) (p : String) (a b : Nat) : Prop :=
  jobStarted s a = true
  ∨ (jobStarted s b = false
     ∧ ∀ q, b ∈ s.waitListByPipeline q →
        q = p ∧ beforeOn (s.waitListByPipeline p) a b)

/-- Fixture: state after one schedule on pipeline `p` (the job starts). -/
def sampleP1 : RunnerState := (ScheduleAsync sampleDefs initialState "p" "v1").1

/-- Fixture: state after a second schedule on pipeline `p` (job 1 queues). -/
def sampleP2 : RunnerState := (ScheduleAsync sampleDefs sampleP1 "p" "v2").1

/-- Fixture: state after a third schedule on pipeline `p` (job 2 queues
behind job 1, the wait list is `[1, 2]`). -/
def sampleP3 : RunnerState := (ScheduleAsync sampleDefs sampleP2 "p" "v3").1

/-- Fixture: `sampleP3` after job 0 completes; the drain starts job 1. -/
def sampleP4 : RunnerState := jobCompleted sampleDefs sampleP3 0 none

/-- Fixture: `sampleP4` after job 1 completes; the drain starts job 2. -/
def sampleP5 : RunnerState := jobCompleted sampleDefs sampleP4 1 none

/-- The started job 0 as registered in `sampleP3`. -/
def samplePJob0 : PipelineJob :=
  { id := 0, pipeline := "p", completed := false, canceled := false, created := 0,
    start := some 0, endTime := none, user := "v1",
    tasks := buildJobTasks [("b", sampleTaskDef ["a"]), ("a", sampleTaskDef [])],
    lastError := none }

/-- The started job 1 as registered in `sampleP4`. -/
def samplePJob1 : PipelineJob :=
  { id := 1, pipeline := "p", completed := false, canceled := false, created := 0,
    start := some 0, endTime := none, user := "v2",
    tasks := buildJobTasks [("b", sampleTaskDef ["a"]), ("a", sampleTaskDef [])],
    lastError := none }

/-- Fixture task list with one dependency edge (`b` depends on `a`), in
reverse order. -/
def sampleJTasks : List JTask :=
  [{ name := "b", script := ["echo hi"], dependsOn := ["a"], allowFailure := false,
     status := "waiting", start := none, endTime := none, skipped := false, exitCode := 0,
     errored := false, error := none },
   { name := "a", script := ["echo hi"], dependsOn := [], allowFailure := false,
     status := "waiting", start := none, endTime := none, skipped := false, exitCode := 0,
     errored := false, error := none }]

/-- Fixture job whose persistence round trip is lossy: it carries a
`lastError` (not persisted) and a task error with empty message (reloads as
nil). -/
def sampleLossyJob : PipelineJob :=
  { id := 3, pipeline := "p", completed := true, canceled := false, created := 0,
    start := some 1, endTime := some 2, user := "u",
    tasks := [{ name := "a", script := ["x"], dependsOn := [], allowFailure := false,
                status := "error", start := some 1, endTime := some 2, skipped := false,
                exitCode := 1, errored := true, error := some "" }],
    lastError := some "boom" }

end Prunner

namespace Prunner

/-! # Helper lemmas -/

/-- Appending a non-empty string yields a non-empty string. -/
theorem append_ne_empty_right (s t : String) (h : t ≠ "") : s ++ t ≠ "" := by
  intro heq
  apply h
  apply String.ext
  have hd : (s ++ t).data = s.data ++ t.data := String.data_append s t
  rw [heq] at hd
  have hnil : t.data = [] := (List.append_eq_nil.mp hd.symm).2
  simpa using hnil

/-- Unfolding of `pathJoin` on non-empty components. -/
theorem pathJoin_ne_empty (a b : String) (ha : a ≠ "") (hb : b ≠ "") :
    pathJoin a b = a ++ "/" ++ b := by
  unfold pathJoin
  rw [if_neg ha, if_neg hb]

/-- The execute loop of the task runner, on a command list without hard
failures and with failure allowed, returns no error, leaves `Errored` false
and does not touch `Skipped`. -/
theorem executeLoop_no_failure (now : Nat) :
    ∀ (cmds : List CmdOutcome) (t : ExecTask),
      t.allowFailure = true → t.errored = false →
      (∀ m, CmdOutcome.execFailure m ∉ cmds) →
      (executeLoop now t cmds).2 = none ∧ (executeLoop now t cmds).1.errored = false
        ∧ (executeLoop now t cmds).1.skipped = t.skipped := by
  intro cmds
  induction cmds with
  | nil =>
    intro t _ he _
    simp [executeLoop, he]
  | cons c rest ih =>
    intro t ha he hf
    match c with
    | .ok out =>
      have hstep : executeLoop now t (CmdOutcome.ok out :: rest) = executeLoop now t rest := rfl
      rw [hstep]
      exact ih t ha he (fun m hm => hf m (List.mem_cons_of_mem _ hm))
    | .exitStatus code msg =>
      have hstep : executeLoop now t (CmdOutcome.exitStatus code msg :: rest)
          = if t.allowFailure = true then
              executeLoop now { t with exitCode := toInt16 code } rest
            else
              ({ t with
                 exitCode := toInt16 code
                 errored := true
                 error := some msg
                 endedAt := some now }, some msg) := rfl
      rw [hstep, if_pos ha]
      exact ih _ ha he (fun m hm => hf m (List.mem_cons_of_mem _ hm))
    | .execFailure msg =>
      exact absurd (List.mem_cons_self _ _) (hf msg)

/-- Draining a wait list never modifies the record of a job that is not on
the drained list. -/
theorem drainLoop_jobs_not_mem (defs : Defs) (p : String) :
    ∀ (wl : List Nat) (s : RunnerState) (id : Nat), id ∉ wl →
      (drainLoop defs p s wl).jobs id = s.jobs id := by
  intro wl
  induction wl with
  | nil =>
    intro s id _
    rfl
  | cons id0 rest ih =>
    intro s id hid
    have hid0 : id ≠ id0 := fun h => hid (h ▸ List.mem_cons_self _ _)
    have hrest : id ∉ rest := fun h => hid (List.mem_cons_of_mem _ h)
    simp only [drainLoop]
    split
    · rw [ih _ _ hrest]
      unfold startJob
      cases hj : s.jobs id0 with
      | none => rfl
      | some j =>
        simp only [requestPersist]
        exact if_neg hid0
    · rfl

/-! ## Counting lemmas -/

/-- Filter length is monotone under pointwise implication of predicates. -/
theorem length_filter_mono {l : List Nat} (f g : Nat → Bool)
    (h : ∀ k ∈ l, g k = true → f k = true) :
    (l.filter g).length ≤ (l.filter f).length := by
  induction l with
  | nil => simp
  | cons x xs ih =>
    have ih' := ih (fun k hk => h k (List.mem_cons_of_mem _ hk))
    rw [List.filter_cons, List.filter_cons]
    by_cases hg : g x = true
    · rw [if_pos hg, if_pos (h x (List.mem_cons_self _ _) hg)]
      simpa using ih'
    · rw [if_neg hg]
      by_cases hf : f x = true
      · rw [if_pos hf]
        exact Nat.le_succ_of_le ih'
      · rw [if_neg hf]
        exact ih'

/-- Turning exactly one listed element from false to true bumps the filter
count by one. -/
theorem length_filter_update_one {l : List Nat} {id : Nat} (f g : Nat → Bool)
    (hmem : id ∈ l) (hnd : l.Nodup)
    (hfid : f id = false) (hgid : g id = true)
    (hother : ∀ k ∈ l, k ≠ id → g k = f k) :
    (l.filter g).length = (l.filter f).length + 1 := by
  induction l with
  | nil => cases hmem
  | cons x xs ih =>
    rcases List.mem_cons.mp hmem with rfl | hmem'
    · rw [List.filter_cons, List.filter_cons, if_pos hgid, if_neg (by simp [hfid])]
      have hnot : id ∉ xs := (List.nodup_cons.mp hnd).1
      have heq : xs.filter g = xs.filter f :=
        List.filter_congr (fun k hk =>
          hother k (List.mem_cons_of_mem _ hk) (fun hkid => hnot (hkid ▸ hk)))
      rw [heq]
      simp
    · have hx : x ≠ id := fun he => (List.nodup_cons.mp hnd).1 (he ▸ hmem')
      have hgx : g x = f x := hother x (List.mem_cons_self _ _) hx
      have ihh := ih hmem' (List.nodup_cons.mp hnd).2
        (fun k hk hkid => hother k (List.mem_cons_of_mem _ hk) hkid)
      rw [List.filter_cons, List.filter_cons, hgx]
      by_cases hf : f x = true
      · rw [if_pos hf, if_pos hf]
        simp only [List.length_cons, ihh]
      · rw [if_neg hf, if_neg hf]
        exact ihh

/-- Running count only depends on the pipeline's id list and the running
state of its members. -/
theorem runningJobsCount_congr (s s' : RunnerState) (q : String)
    (hlist : s'.jobsByPipeline q = s.jobsByPipeline q)
    (hjobs : ∀ k ∈ s.jobsByPipeline q, isRunningId s' k = isRunningId s k) :
    runningJobsCount s' q = runningJobsCount s q := by
  unfold runningJobsCount
  rw [hlist, List.filter_congr hjobs]

/-! ## Operation unfolding lemmas -/

theorem startJob_eq (s : RunnerState) (id : Nat) (j : PipelineJob) (h : s.jobs id = some j) :
    startJob s id = { s with
      persistQueued := true,
      jobs := fun k => if k = id then some { j with start := some s.now } else s.jobs k } := by
  unfold startJob requestPersist
  rw [h]

theorem startJob_eq_none (s : RunnerState) (id : Nat) (h : s.jobs id = none) :
    startJob s id = { s with persistQueued := true } := by
  unfold startJob requestPersist
  rw [h]

/-- The admission rule yields `Start` exactly below the concurrency limit. -/
theorem resolve_start_iff (defs : Defs) (s : RunnerState) (p : String) :
    resolveScheduleAction defs s p = ScheduleAction.start
      ↔ runningJobsCount s p < (pipelineDefOf defs p).concurrency := by
  unfold resolveScheduleAction
  by_cases h : runningJobsCount s p ≥ (pipelineDefOf defs p).concurrency
  · rw [if_pos h]
    constructor
    · intro hc
      exfalso
      revert hc
      split
      · simp
      · split
        · simp
        · split
          · split <;> simp
          · simp
    · intro hc
      omega
  · rw [if_neg h]
    constructor
    · intro _
      omega
    · intro _
      rfl

/-- The admission rule yields `Replace` exactly when the concurrency is
exhausted, queueing is not disabled, the strategy is replace and the wait
list is non-empty. -/
theorem resolve_replace_iff (defs : Defs) (s : RunnerState) (p : String) :
    resolveScheduleAction defs s p = ScheduleAction.replace
      ↔ (runningJobsCount s p ≥ (pipelineDefOf defs p).concurrency
         ∧ (pipelineDefOf defs p).queueLimit ≠ some 0
         ∧ (pipelineDefOf defs p).queueStrategy = QueueStrategy.replace
         ∧ s.waitListByPipeline p ≠ []) := by
  unfold resolveScheduleAction
  by_cases h : runningJobsCount s p ≥ (pipelineDefOf defs p).concurrency
  · rw [if_pos h]
    by_cases hql : (pipelineDefOf defs p).queueLimit = some 0
    · rw [if_pos hql]
      constructor
      · intro hc
        cases hc
      · intro hc
        exact absurd hql hc.2.1
    · rw [if_neg hql]
      by_cases hrep : (pipelineDefOf defs p).queueStrategy = QueueStrategy.replace
            ∧ s.waitListByPipeline p ≠ []
      · rw [if_pos hrep]
        simp [h, hql, hrep.1, hrep.2]
      · rw [if_neg hrep]
        constructor
        · intro hc
          exfalso
          revert hc
          split
          · split <;> simp
          · simp
        · intro hc
          exact absurd ⟨hc.2.2.1, hc.2.2.2⟩ hrep
  · rw [if_neg h]
    constructor
    · intro hc
      cases hc
    · intro hc
      exact absurd hc.1 h

/-- The `Queue` action implies that the concurrency is exhausted and, under
the replace strategy, that the wait list is empty. -/
theorem resolve_queue_spec (defs : Defs) (s : RunnerState) (p : String)
    (h : resolveScheduleAction defs s p = ScheduleAction.queue) :
    runningJobsCount s p ≥ (pipelineDefOf defs p).concurrency
    ∧ ((pipelineDefOf defs p).queueStrategy = QueueStrategy.replace →
        s.waitListByPipeline p = []) := by
  by_cases hge : runningJobsCount s p ≥ (pipelineDefOf defs p).concurrency
  · refine ⟨hge, ?_⟩
    intro hrep
    by_cases hwl : s.waitListByPipeline p = []
    · exact hwl
    · exfalso
      have : resolveScheduleAction defs s p = ScheduleAction.replace := by
        unfold resolveScheduleAction
        rw [if_pos hge]
        have hql : (pipelineDefOf defs p).queueLimit ≠ some 0 := by
          intro hql0
          have hnq : resolveScheduleAction defs s p = ScheduleAction.noQueue := by
            unfold resolveScheduleAction
            rw [if_pos hge, if_pos hql0]
          rw [hnq] at h
          cases h
        rw [if_neg hql, if_pos ⟨hrep, hwl⟩]
      rw [this] at h
      cases h
  · exfalso
    have : resolveScheduleAction defs s p = ScheduleAction.start := by
      unfold resolveScheduleAction
      rw [if_neg hge]
    rw [this] at h
    cases h

/-! ## Drain loop master lemma -/

/-- Master lemma for `drainLoop`: it pops and starts some prefix of the
local list, writes the remainder back, preserves the other wait lists, the
job heap outside the popped prefix and the invariants, and stops only when
the list is exhausted or the admission rule no longer yields `Start`. -/
theorem drainLoop_spec (defs : Defs) (p : String) :
    ∀ (wl : List Nat) (s : RunnerState),
      JobIdsOK s → ByPipelineOK s → ConcurrencyOK defs s →
      wl.Nodup → (∀ id ∈ wl, WaitJobOK s p id) →
      ∃ k, k ≤ wl.length
        ∧ (drainLoop defs p s wl).waitListByPipeline p = wl.drop k
        ∧ (∀ q, q ≠ p → (drainLoop defs p s wl).waitListByPipeline q = s.waitListByPipeline q)
        ∧ (∀ id, id ∉ wl.take k → (drainLoop defs p s wl).jobs id = s.jobs id)
        ∧ (∀ id ∈ wl.take k, jobStarted (drainLoop defs p s wl) id = true)
        ∧ (drainLoop defs p s wl).jobsByPipeline = s.jobsByPipeline
        ∧ (drainLoop defs p s wl).nextId = s.nextId
        ∧ (drainLoop defs p s wl).now = s.now
        ∧ JobIdsOK (drainLoop defs p s wl)
        ∧ ByPipelineOK (drainLoop defs p s wl)
        ∧ ConcurrencyOK defs (drainLoop defs p s wl)
        ∧ (k = wl.length
           ∨ resolveScheduleAction defs (drainLoop defs p s wl) p ≠ ScheduleAction.start) := by
  intro wl
  induction wl with
  | nil =>
    intro s h1 h2 h3 _ _
    refine ⟨0, Nat.le_refl _, ?_, ?_, fun _ _ => rfl, fun id hid => absurd hid (by simp),
      rfl, rfl, rfl, h1, h2, h3, Or.inl rfl⟩
    · show (setWaitList s p []).waitListByPipeline p = []
      unfold setWaitList
      simp
    · intro q hq
      show (setWaitList s p []).waitListByPipeline q = _
      unfold setWaitList
      simp [hq]
  | cons id0 rest ih =>
    intro s h1 h2 h3 hnd hwl
    have hunfold : drainLoop defs p s (id0 :: rest)
        = if resolveScheduleAction defs s p = ScheduleAction.start then
            drainLoop defs p (startJob s id0) rest
          else
            setWaitList s p (id0 :: rest) := rfl
    by_cases hact : resolveScheduleAction defs s p = ScheduleAction.start
    · -- the head is popped and started
      obtain ⟨j, hj, hjp, hjs, hjc, hjx, hjm⟩ := hwl id0 (List.mem_cons_self _ _)
      have hstep : drainLoop defs p s (id0 :: rest) = drainLoop defs p (startJob s id0) rest := by
        rw [hunfold, if_pos hact]
      set s1 := startJob s id0 with hs1def
      have hs1 : s1 = { s with
          persistQueued := true,
          jobs := fun k => if k = id0 then some { j with start := some s.now } else s.jobs k } :=
        startJob_eq s id0 j hj
      have hs1jobs : ∀ k, k ≠ id0 → s1.jobs k = s.jobs k := by
        intro k hk
        rw [hs1]
        exact if_neg hk
      have hs1id0 : s1.jobs id0 = some { j with start := some s.now } := by
        rw [hs1]
        exact if_pos rfl
      have hs1bp : s1.jobsByPipeline = s.jobsByPipeline := by rw [hs1]
      have hs1wl : s1.waitListByPipeline = s.waitListByPipeline := by rw [hs1]
      have hs1next : s1.nextId = s.nextId := by rw [hs1]
      have hs1now : s1.now = s.now := by rw [hs1]
      have h1' : JobIdsOK s1 := by
        intro k jk hjk
        rw [hs1next]
        by_cases hk : k = id0
        · subst hk
          rw [hs1id0] at hjk
          injection hjk with he
          subst he
          exact ⟨(h1 k j hj).1, (h1 k j hj).2⟩
        · rw [hs1jobs k hk] at hjk
          exact h1 k jk hjk
      have h2' : ByPipelineOK s1 := by
        intro q
        rw [hs1bp]
        refine ⟨(h2 q).1, ?_⟩
        intro id hid
        by_cases hk : id = id0
        · subst hk
          obtain ⟨j', hj', hj'q⟩ := (h2 q).2 id hid
          rw [hj] at hj'
          injection hj' with he
          subst he
          exact ⟨{ j with start := some s.now }, hs1id0, hj'q⟩
        · obtain ⟨j', hj', hj'q⟩ := (h2 q).2 id hid
          exact ⟨j', by rw [hs1jobs id hk]; exact hj', hj'q⟩
      have hcnt : ∀ q, q ≠ p → runningJobsCount s1 q = runningJobsCount s q := by
        intro q hq
        apply runningJobsCount_congr
        · rw [hs1bp]
        · intro k hkmem
          have hk : k ≠ id0 := by
            intro he
            subst he
            obtain ⟨j', hj', hj'q⟩ := (h2 q).2 k hkmem
            rw [hj] at hj'
            injection hj' with he'
            subst he'
            have hqp : q = p := by rw [← hj'q, hjp]
            exact hq hqp
          unfold isRunningId
          rw [hs1jobs k hk]
      have hcntp : runningJobsCount s1 p = runningJobsCount s p + 1 := by
        unfold runningJobsCount
        rw [show s1.jobsByPipeline p = s.jobsByPipeline p from congrFun hs1bp p]
        apply length_filter_update_one _ _ hjm (h2 p).1
        · unfold isRunningId
          rw [hj]
          simp [PipelineJob.isRunning, hjs]
        · unfold isRunningId
          rw [hs1id0]
          simp [PipelineJob.isRunning, hjc, hjx]
        · intro k _ hkid
          unfold isRunningId
          rw [hs1jobs k hkid]
      have h3' : ConcurrencyOK defs s1 := by
        intro q
        by_cases hq : q = p
        · subst hq
          rw [hcntp]
          have := (resolve_start_iff defs s q).mp hact
          omega
        · rw [hcnt q hq]
          exact h3 q
      have hwl' : ∀ id ∈ rest, WaitJobOK s1 p id := by
        intro id hid
        have hne : id ≠ id0 := fun he => (List.nodup_cons.mp hnd).1 (he ▸ hid)
        obtain ⟨j', a, b, c, d, e, f⟩ := hwl id (List.mem_cons_of_mem _ hid)
        refine ⟨j', ?_, b, c, d, e, ?_⟩
        · rw [hs1jobs id hne]
          exact a
        · rw [hs1bp]
          exact f
      obtain ⟨k, hk, hwlp, hwlq, hjobs, hstarted, hbp, hnext, hnow, hI1, hI2, hI3, hlast⟩ :=
        ih s1 h1' h2' h3' (List.nodup_cons.mp hnd).2 hwl'
      have hid0take : id0 ∉ rest.take k := by
        intro hc
        exact (List.nodup_cons.mp hnd).1 (List.take_subset _ _ hc)
      refine ⟨k + 1, by simpa using Nat.succ_le_succ hk, ?_, ?_, ?_, ?_, ?_, ?_, ?_, ?_, ?_, ?_, ?_⟩
      · rw [hstep, List.drop_succ_cons]
        exact hwlp
      · intro q hq
        rw [hstep, hwlq q hq, hs1wl]
      · intro id hidnot
        rw [List.take_succ_cons] at hidnot
        have hne : id ≠ id0 := fun he => hidnot (he ▸ List.mem_cons_self _ _)
        have hnot' : id ∉ rest.take k := fun hc => hidnot (List.mem_cons_of_mem _ hc)
        rw [hstep, hjobs id hnot', hs1jobs id hne]
      · intro id hidmem
        rw [List.take_succ_cons] at hidmem
        rw [hstep]
        rcases List.mem_cons.mp hidmem with rfl | hmem2
        · unfold jobStarted
          rw [hjobs id hid0take, hs1id0]
          rfl
        · exact hstarted id hmem2
      · rw [hstep, hbp, hs1bp]
      · rw [hstep, hnext, hs1next]
      · rw [hstep, hnow, hs1now]
      · rw [hstep]
        exact hI1
      · rw [hstep]
        exact hI2
      · rw [hstep]
        exact hI3
      · rw [hstep]
        rcases hlast with h | h
        · left
          rw [List.length_cons, h]
        · right
          exact h
    · -- the admission rule does not yield Start: write the list back
      have hstep : drainLoop defs p s (id0 :: rest) = setWaitList s p (id0 :: rest) := by
        rw [hunfold, if_neg hact]
      refine ⟨0, Nat.zero_le _, ?_, ?_, fun _ _ => by rw [hstep]; rfl,
        fun id hid => absurd hid (by simp), by rw [hstep]; rfl, by rw [hstep]; rfl,
        by rw [hstep]; rfl, ?_, ?_, ?_, ?_⟩
      · rw [hstep]
        show (setWaitList s p (id0 :: rest)).waitListByPipeline p = _
        unfold setWaitList
        simp
      · intro q hq
        rw [hstep]
        show (setWaitList s p (id0 :: rest)).waitListByPipeline q = _
        unfold setWaitList
        simp [hq]
      · rw [hstep]
        exact h1
      · rw [hstep]
        exact h2
      · rw [hstep]
        exact h3
      · right
        rw [hstep]
        intro hc
        exact hact ((resolve_start_iff defs s p).mpr
          ((resolve_start_iff defs (setWaitList s p (id0 :: rest)) p).mp hc))

/-! ## Invariant preservation -/

/-- A well-placed waiting job stays well placed when its record and its
pipeline's registration list are untouched. -/
theorem waitJobOK_transfer {s s' : RunnerState} {q : String} {id : Nat}
    (h : WaitJobOK s q id) (hjobs : s'.jobs id = s.jobs id)
    (hbp : ∀ k, k ∈ s.jobsByPipeline q → k ∈ s'.jobsByPipeline q) : WaitJobOK s' q id := by
  obtain ⟨j, a, b, c, d, e, f⟩ := h
  exact ⟨j, by rw [hjobs]; exact a, b, c, d, e, hbp id f⟩

theorem newJob_id (s : RunnerState) (p u : String) (pd : PipelineDef) :
    (newJob s p u pd).id = s.nextId := rfl

theorem newJob_pipeline (s : RunnerState) (p u : String) (pd : PipelineDef) :
    (newJob s p u pd).pipeline = p := rfl

theorem registerJob_waitList (s : RunnerState) (job : PipelineJob) :
    (registerJob s job).waitListByPipeline = s.waitListByPipeline := rfl

theorem registerJob_nextId (s : RunnerState) (job : PipelineJob) :
    (registerJob s job).nextId = s.nextId + 1 := rfl

theorem registerJob_now (s : RunnerState) (job : PipelineJob) :
    (registerJob s job).now = s.now := rfl

theorem registerJob_jobs_self (s : RunnerState) (job : PipelineJob) :
    (registerJob s job).jobs job.id = some job := if_pos rfl

theorem registerJob_jobs_ne (s : RunnerState) (job : PipelineJob) (k : Nat) (h : k ≠ job.id) :
    (registerJob s job).jobs k = s.jobs k := if_neg h

theorem registerJob_bp_self (s : RunnerState) (job : PipelineJob) :
    (registerJob s job).jobsByPipeline job.pipeline
      = s.jobsByPipeline job.pipeline ++ [job.id] := if_pos rfl

theorem registerJob_bp_ne (s : RunnerState) (job : PipelineJob) (q : String)
    (h : q ≠ job.pipeline) :
    (registerJob s job).jobsByPipeline q = s.jobsByPipeline q := if_neg h

/-- In a state satisfying `JobIdsOK`, the fresh id is unregistered. -/
theorem fresh_id_unregistered (s : RunnerState) (h1 : JobIdsOK s) : s.jobs s.nextId = none := by
  cases hj : s.jobs s.nextId with
  | none => rfl
  | some j => exact absurd (h1 _ _ hj).1 (Nat.lt_irrefl _)

/-- In a state satisfying the invariants, every id listed anywhere is below
the fresh counter. -/
theorem listed_id_lt (s : RunnerState) (h1 : JobIdsOK s) (h2 : ByPipelineOK s) (q : String) :
    ∀ k ∈ s.jobsByPipeline q, k < s.nextId := by
  intro k hk
  obtain ⟨j', hj', _⟩ := (h2 q).2 k hk
  exact (h1 k j' hj').1

/-- `ScheduleAsync` on the `Queue` action, written out. -/
theorem scheduleAsync_queue_eq (defs : Defs) (s : RunnerState) (p u : String)
    (pd : PipelineDef) (hdp : defs p = some pd)
    (hact : resolveScheduleAction defs s p = ScheduleAction.queue) :
    ScheduleAsync defs s p u
      = (requestPersist (setWaitList (registerJob s (newJob s p u pd)) p
          (s.waitListByPipeline p ++ [s.nextId])), .ok s.nextId) := by
  unfold ScheduleAsync
  rw [hdp, hact]
  rfl

/-- `ScheduleAsync` on the `Start` action, written out. -/
theorem scheduleAsync_start_eq (defs : Defs) (s : RunnerState) (p u : String)
    (pd : PipelineDef) (hdp : defs p = some pd)
    (hact : resolveScheduleAction defs s p = ScheduleAction.start) :
    ScheduleAsync defs s p u
      = (requestPersist (startJob (registerJob s (newJob s p u pd)) s.nextId), .ok s.nextId) := by
  unfold ScheduleAsync
  rw [hdp, hact]
  rfl

/-- `ScheduleAsync` on the `Replace` action with singleton wait list,
written out: the tail job is canceled in place and its slot is overwritten
by the new job. -/
theorem scheduleAsync_replace_eq (defs : Defs) (s : RunnerState) (p u : String)
    (pd : PipelineDef) (prev : Nat) (jprev : PipelineJob)
    (hdp : defs p = some pd)
    (hact : resolveScheduleAction defs s p = ScheduleAction.replace)
    (hwl : s.waitListByPipeline p = [prev])
    (hprev : s.jobs prev = some jprev)
    (hlt : prev < s.nextId) :
    ScheduleAsync defs s p u
      = (requestPersist (setWaitList
          { registerJob s (newJob s p u pd) with
            jobs := fun k => (if k = prev then some { jprev with canceled := true }
              else (registerJob s (newJob s p u pd)).jobs k) }
          p [s.nextId]), .ok s.nextId) := by
  have hne : prev ≠ s.nextId := Nat.ne_of_lt hlt
  unfold ScheduleAsync
  rw [hdp, hact]
  have e1 : (registerJob s (newJob s p u pd)).waitListByPipeline p = [prev] := hwl
  have e2 : (registerJob s (newJob s p u pd)).jobs prev = some jprev := by
    rw [registerJob_jobs_ne s _ prev (by rw [newJob_id]; exact hne)]
    exact hprev
  simp only [e1, List.getLast?_singleton, e2, List.dropLast_single, List.nil_append, newJob_id]

/-- Marking a started job completed (the in-place job update at the top of
`jobCompleted`) preserves the runner invariants. -/
theorem completeUpdate_inv (defs : Defs) (s : RunnerState) (id : Nat) (err : Option String)
    (j : PipelineJob) (hj : s.jobs id = some j) (hstart : j.start.isSome = true)
    (hinv : Inv defs s) :
    Inv defs { s with jobs := fun k =>
      (if k = id then some { j with completed := true, endTime := some s.now, lastError := err }
       else s.jobs k) } := by
  obtain ⟨h1, h2, h3, h4, h5⟩ := hinv
  set jnew : PipelineJob :=
    { j with completed := true, endTime := some s.now, lastError := err } with hjnew
  set s1 : RunnerState :=
    { s with jobs := fun k => (if k = id then some jnew else s.jobs k) } with hs1
  have hs1jobs : ∀ k, k ≠ id → s1.jobs k = s.jobs k := by
    intro k hk
    exact if_neg hk
  have hs1id : s1.jobs id = some jnew := if_pos rfl
  have h1' : JobIdsOK s1 := by
    intro k jk hjk
    by_cases hk : k = id
    · subst hk
      rw [hs1id] at hjk
      injection hjk with he
      subst he
      exact ⟨(h1 k j hj).1, (h1 k j hj).2⟩
    · rw [hs1jobs k hk] at hjk
      exact h1 k jk hjk
  have h2' : ByPipelineOK s1 := by
    intro q
    refine ⟨(h2 q).1, ?_⟩
    intro k hk
    by_cases hkid : k = id
    · subst hkid
      obtain ⟨j', hj', hj'q⟩ := (h2 q).2 k hk
      rw [hj] at hj'
      injection hj' with he
      subst he
      exact ⟨jnew, hs1id, hj'q⟩
    · obtain ⟨j', hj', hj'q⟩ := (h2 q).2 k hk
      exact ⟨j', by rw [hs1jobs k hkid]; exact hj', hj'q⟩
  have h5' : ConcurrencyOK defs s1 := by
    intro q
    refine le_trans ?_ (h5 q)
    apply length_filter_mono
    intro k _ hk
    by_cases hkid : k = id
    · subst hkid
      exfalso
      unfold isRunningId at hk
      rw [hs1id] at hk
      unfold PipelineJob.isRunning at hk
      simp [hjnew] at hk
    · unfold isRunningId at hk ⊢
      rw [hs1jobs k hkid] at hk
      exact hk
  have hnotwl : ∀ q, id ∉ s.waitListByPipeline q := by
    intro q hmem
    obtain ⟨j', hj', _, hstart', _⟩ := (h3 q).2 id hmem
    rw [hj] at hj'
    injection hj' with he
    subst he
    rw [hstart'] at hstart
    cases hstart
  have h3' : WaitListOK s1 := by
    intro q
    refine ⟨(h3 q).1, ?_⟩
    intro k hk
    have hkid : k ≠ id := fun he => hnotwl q (he ▸ hk)
    exact waitJobOK_transfer ((h3 q).2 k hk) (hs1jobs k hkid) (fun _ hm => hm)
  exact ⟨h1', h2', h3', h4, h5'⟩

/-- `jobCompleted` preserves the runner invariants, given that it is only
invoked for jobs that have started (the goroutine guard). -/
theorem jobCompleted_inv (defs : Defs) (s : RunnerState) (id : Nat) (err : Option String)
    (hinv : Inv defs s)
    (hguard : ∀ j, s.jobs id = some j → j.start.isSome = true) :
    Inv defs (jobCompleted defs s id err) := by
  unfold jobCompleted
  cases hj : s.jobs id with
  | none => exact hinv
  | some j =>
    have hstart := hguard j hj
    set s1 : RunnerState := { s with jobs := fun k =>
      (if k = id then some { j with completed := true, endTime := some s.now, lastError := err }
       else s.jobs k) } with hs1
    obtain ⟨h1', h2', h3', h4', h5'⟩ : Inv defs s1 :=
      completeUpdate_inv defs s id err j hj hstart hinv
    obtain ⟨k, hk, hwlp, hwlq, hjobs, _, hbp, _, _, hI1, hI2, hI3, _⟩ :=
      drainLoop_spec defs j.pipeline (s1.waitListByPipeline j.pipeline) s1 h1' h2' h5'
        (h3' j.pipeline).1 ((h3' j.pipeline).2)
    set sd := drainLoop defs j.pipeline s1 (s1.waitListByPipeline j.pipeline) with hsd
    have htake_pipeline : ∀ k', k' ∈ (s1.waitListByPipeline j.pipeline).take k →
        ∃ j', s1.jobs k' = some j' ∧ j'.pipeline = j.pipeline := by
      intro k' hk'
      obtain ⟨j', a, b, _⟩ := (h3' j.pipeline).2 k' (List.take_subset _ _ hk')
      exact ⟨j', a, b⟩
    have hWL : WaitListOK sd := by
      intro q
      by_cases hq : q = j.pipeline
      · rw [hq, hwlp]
        refine ⟨List.Nodup.sublist (List.drop_sublist _ _) (h3' j.pipeline).1, ?_⟩
        intro k' hk'
        have hnottake : k' ∉ (s1.waitListByPipeline j.pipeline).take k :=
          fun hc => List.disjoint_take_drop (h3' j.pipeline).1 (Nat.le_refl k) hc hk'
        exact waitJobOK_transfer ((h3' j.pipeline).2 k' (List.drop_subset _ _ hk'))
          (hjobs k' hnottake) (fun m hm => by rw [hbp]; exact hm)
      · rw [hwlq q hq]
        refine ⟨(h3' q).1, ?_⟩
        intro k' hk'
        obtain ⟨j', a, b, _⟩ := (h3' q).2 k' hk'
        have hnottake : k' ∉ (s1.waitListByPipeline j.pipeline).take k := by
          intro hc
          obtain ⟨j'', a', b'⟩ := htake_pipeline k' hc
          rw [a] at a'
          injection a' with he
          subst he
          exact hq (b.symm.trans b')
        exact waitJobOK_transfer ((h3' q).2 k' hk')
          (hjobs k' hnottake) (fun m hm => by rw [hbp]; exact hm)
    have hRB : ReplaceBound defs sd := by
      intro q hstrat
      by_cases hq : q = j.pipeline
      · rw [hq] at hstrat ⊢
        rw [hwlp]
        calc ((s1.waitListByPipeline j.pipeline).drop k).length
            ≤ (s1.waitListByPipeline j.pipeline).length := by
              rw [List.length_drop]
              omega
          _ ≤ 1 := h4' j.pipeline hstrat
      · rw [hwlq q hq]
        exact h4' q hstrat
    show Inv defs (requestPersist sd)
    exact ⟨hI1, hI2, hWL, hRB, hI3⟩

/-- `ScheduleAsync` preserves the runner invariants. -/
theorem scheduleAsync_inv (defs : Defs) (s : RunnerState) (p u : String) (hinv : Inv defs s) :
    Inv defs (ScheduleAsync defs s p u).1 := by
  obtain ⟨h1, h2, h3, h4, h5⟩ := hinv
  cases hdp : defs p with
  | none =>
    have he : ScheduleAsync defs s p u = (s, .error .unknownPipeline) := by
      unfold ScheduleAsync
      rw [hdp]
    rw [he]
    exact ⟨h1, h2, h3, h4, h5⟩
  | some pd =>
    set job : PipelineJob := newJob s p u pd with hjobdef
    set s1 : RunnerState := registerJob s job with hs1def
    have hjobs_ne : ∀ k, k ≠ s.nextId → s1.jobs k = s.jobs k := fun k hk =>
      registerJob_jobs_ne s job k hk
    have hjobs_self : s1.jobs s.nextId = some job := registerJob_jobs_self s job
    have hbp_p : s1.jobsByPipeline p = s.jobsByPipeline p ++ [s.nextId] :=
      registerJob_bp_self s job
    have hbp_ne : ∀ q, q ≠ p → s1.jobsByPipeline q = s.jobsByPipeline q := fun q hq =>
      registerJob_bp_ne s job q hq
    have hwl_eq : s1.waitListByPipeline = s.waitListByPipeline := rfl
    have hnext : s1.nextId = s.nextId + 1 := rfl
    have hfreshbp : s.nextId ∉ s.jobsByPipeline p := fun hc =>
      absurd (listed_id_lt s h1 h2 p _ hc) (Nat.lt_irrefl _)
    have hfreshwl : ∀ q, s.nextId ∉ s.waitListByPipeline q := by
      intro q hc
      obtain ⟨j', hj', _⟩ := (h3 q).2 _ hc
      exact absurd (h1 _ _ hj').1 (Nat.lt_irrefl _)
    have h1' : JobIdsOK s1 := by
      intro k jk hjk
      rw [hnext]
      by_cases hk : k = s.nextId
      · subst hk
        rw [hjobs_self] at hjk
        injection hjk with he
        subst he
        exact ⟨Nat.lt_succ_self _, rfl⟩
      · rw [hjobs_ne k hk] at hjk
        exact ⟨Nat.lt_succ_of_lt (h1 k jk hjk).1, (h1 k jk hjk).2⟩
    have hnd_bp : ∀ q, (s1.jobsByPipeline q).Nodup := by
      intro q
      by_cases hq : q = p
      · rw [hq, hbp_p]
        simp [List.nodup_append, (h2 p).1, hfreshbp]
      · rw [hbp_ne q hq]
        exact (h2 q).1
    have h2' : ByPipelineOK s1 := by
      intro q
      refine ⟨hnd_bp q, ?_⟩
      intro k hk
      by_cases hq : q = p
      · subst hq
        rw [hbp_p] at hk
        rcases List.mem_append.mp hk with hold | hnew
        · obtain ⟨j', hj', hj'q⟩ := (h2 q).2 k hold
          refine ⟨j', ?_, hj'q⟩
          rw [hjobs_ne k (Nat.ne_of_lt (h1 k j' hj').1)]
          exact hj'
        · have hke : k = s.nextId := by simpa using hnew
          subst hke
          exact ⟨job, hjobs_self, rfl⟩
      · rw [hbp_ne q hq] at hk
        obtain ⟨j', hj', hj'q⟩ := (h2 q).2 k hk
        refine ⟨j', ?_, hj'q⟩
        rw [hjobs_ne k (Nat.ne_of_lt (h1 k j' hj').1)]
        exact hj'
    have hnotrun : isRunningId s1 s.nextId = false := by
      unfold isRunningId
      rw [hjobs_self]
      rfl
    have hagree : ∀ q, ∀ k ∈ s.jobsByPipeline q, isRunningId s1 k = isRunningId s k := by
      intro q k hk
      unfold isRunningId
      rw [hjobs_ne k (Nat.ne_of_lt (listed_id_lt s h1 h2 q k hk))]
    have hcnt : ∀ q, runningJobsCount s1 q = runningJobsCount s q := by
      intro q
      unfold runningJobsCount
      by_cases hq : q = p
      · subst hq
        rw [hbp_p, List.filter_append,
          show List.filter (fun id => isRunningId s1 id) [s.nextId] = [] by simp [hnotrun],
          List.append_nil, List.filter_congr (hagree q)]
      · rw [hbp_ne q hq, List.filter_congr (hagree q)]
    have h5' : ConcurrencyOK defs s1 := fun q => (hcnt q) ▸ h5 q
    have h3base : ∀ q, ∀ k ∈ s.waitListByPipeline q, WaitJobOK s1 q k := by
      intro q k hk
      obtain ⟨j', a, b, c, d, e, f⟩ := (h3 q).2 k hk
      refine ⟨j', ?_, b, c, d, e, ?_⟩
      · rw [hjobs_ne k (Nat.ne_of_lt (h1 k j' a).1)]
        exact a
      · by_cases hq : q = p
        · subst hq
          rw [hbp_p]
          exact List.mem_append_left _ f
        · rw [hbp_ne q hq]
          exact f
    cases hact : resolveScheduleAction defs s p with
    | noQueue =>
      have he : ScheduleAsync defs s p u = (s, .error .queueDisabled) := by
        unfold ScheduleAsync
        rw [hdp, hact]
      rw [he]
      exact ⟨h1, h2, h3, h4, h5⟩
    | queueFull =>
      have he : ScheduleAsync defs s p u = (s, .error .queueFull) := by
        unfold ScheduleAsync
        rw [hdp, hact]
      rw [he]
      exact ⟨h1, h2, h3, h4, h5⟩
    | queue =>
      rw [scheduleAsync_queue_eq defs s p u pd hdp hact]
      show Inv defs (requestPersist (setWaitList s1 p (s.waitListByPipeline p ++ [s.nextId])))
      set sw : RunnerState :=
        requestPersist (setWaitList s1 p (s.waitListByPipeline p ++ [s.nextId])) with hswdef
      have hswjobs : sw.jobs = s1.jobs := rfl
      have hswbp : sw.jobsByPipeline = s1.jobsByPipeline := rfl
      have hswnext : sw.nextId = s1.nextId := rfl
      have hswwl_p : sw.waitListByPipeline p = s.waitListByPipeline p ++ [s.nextId] := by
        show (if p = p then _ else _) = _
        rw [if_pos rfl]
      have hswwl_ne : ∀ q, q ≠ p → sw.waitListByPipeline q = s.waitListByPipeline q := by
        intro q hq
        show (if q = p then _ else _) = _
        rw [if_neg hq]
        rfl
      refine ⟨?_, ?_, ?_, ?_, ?_⟩
      · intro k jk hjk
        rw [hswjobs] at hjk
        rw [hswnext]
        exact h1' k jk hjk
      · intro q
        rw [hswbp]
        refine ⟨(h2' q).1, ?_⟩
        intro k hk
        obtain ⟨j', hj', hj'q⟩ := (h2' q).2 k hk
        exact ⟨j', by rw [hswjobs]; exact hj', hj'q⟩
      · intro q
        by_cases hq : q = p
        · subst hq
          rw [hswwl_p]
          constructor
          · simp [List.nodup_append, (h3 q).1, hfreshwl q]
          · intro k hk
            rcases List.mem_append.mp hk with hold | hnew
            · obtain ⟨j', a, b, c, d, e, f⟩ := h3base q k hold
              exact ⟨j', by rw [hswjobs]; exact a, b, c, d, e, by rw [hswbp]; exact f⟩
            · have hke : k = s.nextId := by simpa using hnew
              subst hke
              refine ⟨job, by rw [hswjobs]; exact hjobs_self, rfl, rfl, rfl, rfl, ?_⟩
              rw [hswbp, hbp_p]
              exact List.mem_append_right _ (List.mem_singleton_self _)
        · rw [hswwl_ne q hq]
          refine ⟨(h3 q).1, ?_⟩
          intro k hk
          obtain ⟨j', a, b, c, d, e, f⟩ := h3base q k hk
          exact ⟨j', by rw [hswjobs]; exact a, b, c, d, e, by rw [hswbp]; exact f⟩
      · intro q hstrat
        by_cases hq : q = p
        · subst hq
          rw [hswwl_p, (resolve_queue_spec defs s q hact).2 hstrat]
          simp
        · rw [hswwl_ne q hq]
          exact h4 q hstrat
      · intro q
        have : runningJobsCount sw q = runningJobsCount s1 q :=
          runningJobsCount_congr _ _ _ (congrFun hswbp q) (fun k _ => rfl)
        rw [this]
        exact h5' q
    | replace =>
      obtain ⟨hge, hql, hrep, hwlne⟩ := (resolve_replace_iff defs s p).mp hact
      have hlen1 : (s.waitListByPipeline p).length = 1 := by
        have hb := h4 p hrep
        have hpos := List.length_pos.mpr hwlne
        omega
      obtain ⟨prev, hwl⟩ := List.length_eq_one.mp hlen1
      have hprevmem : prev ∈ s.waitListByPipeline p := by
        rw [hwl]
        exact List.mem_singleton_self _
      obtain ⟨jprev, ha, hb, hc, hd, he, hf⟩ := (h3 p).2 prev hprevmem
      have hlt : prev < s.nextId := (h1 prev jprev ha).1
      rw [scheduleAsync_replace_eq defs s p u pd prev jprev hdp hact hwl ha hlt]
      set s2 : RunnerState :=
        { s1 with
          jobs := fun k => (if k = prev then some { jprev with canceled := true }
            else s1.jobs k) } with hs2def
      show Inv defs (requestPersist (setWaitList s2 p [s.nextId]))
      set sw : RunnerState := requestPersist (setWaitList s2 p [s.nextId]) with hswdef
      have hswjobs : sw.jobs = s2.jobs := rfl
      have hswbp : sw.jobsByPipeline = s1.jobsByPipeline := rfl
      have hswnext : sw.nextId = s1.nextId := rfl
      have hs2ne : ∀ k, k ≠ prev → s2.jobs k = s1.jobs k := fun k hk => if_neg hk
      have hs2prev : s2.jobs prev = some { jprev with canceled := true } := if_pos rfl
      have hs1prev : s1.jobs prev = some jprev := by
        rw [hjobs_ne prev (Nat.ne_of_lt hlt)]
        exact ha
      have hswwl_p : sw.waitListByPipeline p = [s.nextId] := by
        show (if p = p then _ else _) = _
        rw [if_pos rfl]
      have hswwl_ne : ∀ q, q ≠ p → sw.waitListByPipeline q = s.waitListByPipeline q := by
        intro q hq
        show (if q = p then _ else _) = _
        rw [if_neg hq]
        rfl
      refine ⟨?_, ?_, ?_, ?_, ?_⟩
      · intro k jk hjk
        rw [hswjobs] at hjk
        rw [hswnext]
        by_cases hk : k = prev
        · subst hk
          rw [hs2prev] at hjk
          injection hjk with hje
          subst hje
          have := h1 k jprev ha
          rw [hnext]
          exact ⟨Nat.lt_succ_of_lt this.1, this.2⟩
        · rw [hs2ne k hk] at hjk
          exact h1' k jk hjk
      · intro q
        rw [hswbp]
        refine ⟨(h2' q).1, ?_⟩
        intro k hk
        by_cases hkp : k = prev
        · subst hkp
          obtain ⟨j', hj', hj'q⟩ := (h2' q).2 k hk
          rw [hs1prev] at hj'
          injection hj' with hje
          subst hje
          exact ⟨{ jprev with canceled := true }, by rw [hswjobs]; exact hs2prev, hj'q⟩
        · obtain ⟨j', hj', hj'q⟩ := (h2' q).2 k hk
          refine ⟨j', ?_, hj'q⟩
          rw [hswjobs, hs2ne k hkp]
          exact hj'
      · intro q
        by_cases hq : q = p
        · subst hq
          rw [hswwl_p]
          refine ⟨List.nodup_singleton _, ?_⟩
          intro k hk
          have hke : k = s.nextId := by simpa using hk
          subst hke
          refine ⟨job, ?_, rfl, rfl, rfl, rfl, ?_⟩
          · rw [hswjobs, hs2ne s.nextId (Nat.ne_of_gt hlt), hjobs_self]
          · rw [hswbp, hbp_p]
            exact List.mem_append_right _ (List.mem_singleton_self _)
        · rw [hswwl_ne q hq]
          refine ⟨(h3 q).1, ?_⟩
          intro k hk
          obtain ⟨j', a', b', c', d', e', f'⟩ := h3base q k hk
          have hkp : k ≠ prev := by
            intro hke
            subst hke
            rw [hs1prev] at a'
            injection a' with hje
            subst hje
            exact hq (b'.symm.trans hb)
          exact ⟨j', by rw [hswjobs, hs2ne k hkp]; exact a', b', c', d', e',
            by rw [hswbp]; exact f'⟩
      · intro q hstrat
        by_cases hq : q = p
        · subst hq
          rw [hswwl_p]
          simp
        · rw [hswwl_ne q hq]
          exact h4 q hstrat
      · intro q
        have hcongr : runningJobsCount sw q = runningJobsCount s1 q := by
          apply runningJobsCount_congr
          · exact congrFun hswbp q
          · intro k _
            by_cases hkp : k = prev
            · subst hkp
              unfold isRunningId
              rw [hswjobs, hs2prev, hs1prev]
              simp [PipelineJob.isRunning, hc]
            · unfold isRunningId
              rw [hswjobs, hs2ne k hkp]
        rw [hcongr]
        exact h5' q
    | start =>
      rw [scheduleAsync_start_eq defs s p u pd hdp hact]
      show Inv defs (requestPersist (startJob s1 s.nextId))
      have hs2 : startJob s1 s.nextId = { s1 with
          persistQueued := true,
          jobs := fun k => (if k = s.nextId then some { job with start := some s1.now }
            else s1.jobs k) } := startJob_eq s1 s.nextId job hjobs_self
      set s2 : RunnerState := startJob s1 s.nextId with hs2def
      have hs2jobs_ne : ∀ k, k ≠ s.nextId → s2.jobs k = s1.jobs k := by
        intro k hk
        rw [hs2]
        exact if_neg hk
      have hs2self : s2.jobs s.nextId = some { job with start := some s1.now } := by
        rw [hs2]
        exact if_pos rfl
      have hs2bp : s2.jobsByPipeline = s1.jobsByPipeline := by rw [hs2]
      have hs2wl : s2.waitListByPipeline = s.waitListByPipeline := by
        rw [hs2]
        rfl
      have hs2next : s2.nextId = s1.nextId := by rw [hs2]
      show Inv defs (requestPersist s2)
      refine ⟨?_, ?_, ?_, ?_, ?_⟩
      · intro k jk hjk
        show k < s2.nextId ∧ jk.id = k
        rw [hs2next]
        by_cases hk : k = s.nextId
        · subst hk
          rw [show (requestPersist s2).jobs = s2.jobs from rfl, hs2self] at hjk
          injection hjk with hje
          subst hje
          rw [hnext]
          exact ⟨Nat.lt_succ_self _, rfl⟩
        · rw [show (requestPersist s2).jobs = s2.jobs from rfl, hs2jobs_ne k hk] at hjk
          exact h1' k jk hjk
      · intro q
        refine ⟨?_, ?_⟩
        · rw [show (requestPersist s2).jobsByPipeline = s1.jobsByPipeline from hs2bp]
          exact hnd_bp q
        · intro k hk
          rw [show (requestPersist s2).jobsByPipeline = s1.jobsByPipeline from hs2bp] at hk
          by_cases hkn : k = s.nextId
          · subst hkn
            obtain ⟨j', hj', hj'q⟩ := (h2' q).2 s.nextId hk
            rw [hjobs_self] at hj'
            injection hj' with hje
            subst hje
            exact ⟨{ job with start := some s1.now }, hs2self, hj'q⟩
          · obtain ⟨j', hj', hj'q⟩ := (h2' q).2 k hk
            refine ⟨j', ?_, hj'q⟩
            rw [show (requestPersist s2).jobs = s2.jobs from rfl, hs2jobs_ne k hkn]
            exact hj'
      · intro q
        show ((requestPersist s2).waitListByPipeline q).Nodup ∧ _
        rw [show (requestPersist s2).waitListByPipeline = s.waitListByPipeline from hs2wl]
        refine ⟨(h3 q).1, ?_⟩
        intro k hk
        obtain ⟨j', a', b', c', d', e', f'⟩ := h3base q k hk
        have hkn : k ≠ s.nextId := fun hke => hfreshwl q (hke ▸ hk)
        refine ⟨j', ?_, b', c', d', e', ?_⟩
        · rw [show (requestPersist s2).jobs = s2.jobs from rfl, hs2jobs_ne k hkn]
          exact a'
        · rw [show (requestPersist s2).jobsByPipeline = s1.jobsByPipeline from hs2bp]
          exact f'
      · intro q hstrat
        rw [show (requestPersist s2).waitListByPipeline = s.waitListByPipeline from hs2wl]
        exact h4 q hstrat
      · intro q
        show runningJobsCount (requestPersist s2) q ≤ _
        have hcntq : runningJobsCount (requestPersist s2) q = runningJobsCount s2 q :=
          runningJobsCount_congr _ _ _ rfl (fun k _ => rfl)
        rw [hcntq]
        by_cases hq : q = p
        · have hcntp : runningJobsCount s2 q = runningJobsCount s1 q + 1 := by
            unfold runningJobsCount
            rw [show s2.jobsByPipeline q = s1.jobsByPipeline q from congrFun hs2bp q]
            apply length_filter_update_one _ _ ?_ (hnd_bp q)
            · exact hnotrun
            · unfold isRunningId
              rw [hs2self]
              rfl
            · intro k _ hkn
              unfold isRunningId
              rw [hs2jobs_ne k hkn]
            · rw [hq, hbp_p]
              exact List.mem_append_right _ (List.mem_singleton_self _)
          rw [hcntp, hcnt q, hq]
          have := (resolve_start_iff defs s p).mp hact
          omega
        · have : runningJobsCount s2 q = runningJobsCount s1 q := by
            apply runningJobsCount_congr
            · exact congrFun hs2bp q
            · intro k hk
              have hkn : k ≠ s.nextId := by
                intro hke
                subst hke
                rw [hbp_ne q hq] at hk
                exact absurd (listed_id_lt s h1 h2 q _ hk) (Nat.lt_irrefl _)
              unfold isRunningId
              rw [hs2jobs_ne k hkn]
          rw [this]
          exact h5' q

/-- `startJobsOnWaitList` preserves the runner invariants. -/
theorem startJobsOnWaitList_inv (defs : Defs) (s : RunnerState) (p : String)
    (hinv : Inv defs s) : Inv defs (startJobsOnWaitList defs s p) := by
  obtain ⟨h1, h2, h3, h4, h5⟩ := hinv
  obtain ⟨k, hk, hwlp, hwlq, hjobs, _, hbp, _, _, hI1, hI2, hI3, _⟩ :=
    drainLoop_spec defs p (s.waitListByPipeline p) s h1 h2 h5 (h3 p).1 ((h3 p).2)
  set sd := drainLoop defs p s (s.waitListByPipeline p) with hsd
  have htake_pipeline : ∀ k', k' ∈ (s.waitListByPipeline p).take k →
      ∃ j', s.jobs k' = some j' ∧ j'.pipeline = p := by
    intro k' hk'
    obtain ⟨j', a, b, _⟩ := (h3 p).2 k' (List.take_subset _ _ hk')
    exact ⟨j', a, b⟩
  have hWL : WaitListOK sd := by
    intro q
    by_cases hq : q = p
    · rw [hq, hwlp]
      refine ⟨List.Nodup.sublist (List.drop_sublist _ _) (h3 p).1, ?_⟩
      intro k' hk'
      have hnottake : k' ∉ (s.waitListByPipeline p).take k :=
        fun hc => List.disjoint_take_drop (h3 p).1 (Nat.le_refl k) hc hk'
      exact waitJobOK_transfer ((h3 p).2 k' (List.drop_subset _ _ hk'))
        (hjobs k' hnottake) (fun m hm => by rw [hbp]; exact hm)
    · rw [hwlq q hq]
      refine ⟨(h3 q).1, ?_⟩
      intro k' hk'
      obtain ⟨j', a, b, _⟩ := (h3 q).2 k' hk'
      have hnottake : k' ∉ (s.waitListByPipeline p).take k := by
        intro hc
        obtain ⟨j'', a', b'⟩ := htake_pipeline k' hc
        rw [a] at a'
        injection a' with he
        subst he
        exact hq (b.symm.trans b')
      exact waitJobOK_transfer ((h3 q).2 k' hk')
        (hjobs k' hnottake) (fun m hm => by rw [hbp]; exact hm)
  have hRB : ReplaceBound defs sd := by
    intro q hstrat
    by_cases hq : q = p
    · rw [hq] at hstrat ⊢
      rw [hwlp]
      calc ((s.waitListByPipeline p).drop k).length
          ≤ (s.waitListByPipeline p).length := by
            rw [List.length_drop]
            omega
        _ ≤ 1 := h4 p hstrat
    · rw [hwlq q hq]
      exact h4 q hstrat
  exact ⟨hI1, hI2, hWL, hRB, hI3⟩

/-- One critical section preserves the runner invariants. -/
theorem step_inv (defs : Defs) {s s' : RunnerState} (hstep : Step defs s s')
    (hinv : Inv defs s) : Inv defs s' := by
  cases hstep with
  | schedule p u => exact scheduleAsync_inv defs s p u hinv
  | complete id err j hj hstart hcomp =>
    refine jobCompleted_inv defs s id err hinv ?_
    intro j' hj'
    rw [hj] at hj'
    injection hj' with he
    subst he
    exact hstart
  | drain p => exact startJobsOnWaitList_inv defs s p hinv
  | advance t =>
    obtain ⟨h1, h2, h3, h4, h5⟩ := hinv
    exact ⟨fun id j hj => h1 id j hj, fun q => h2 q, fun q => h3 q,
      fun q hq => h4 q hq, fun q => h5 q⟩

/-- The fresh runner state satisfies the invariants. -/
theorem initialState_inv (defs : Defs) : Inv defs initialState := by
  refine ⟨?_, ?_, ?_, ?_, ?_⟩
  · intro id j hj
    cases hj
  · intro q
    exact ⟨List.nodup_nil, fun id hid => absurd hid (List.not_mem_nil _)⟩
  · intro q
    exact ⟨List.nodup_nil, fun id hid => absurd hid (List.not_mem_nil _)⟩
  · intro q _
    exact Nat.zero_le 1
  · intro q
    exact Nat.zero_le _

/-- Every reachable runner state satisfies the invariants. -/
theorem reachable_inv (defs : Defs) {s : RunnerState} (h : Reachable defs s) : Inv defs s := by
  induction h with
  | init => exact initialState_inv defs
  | step _ hstep ih => exact step_inv defs hstep ih

/-! ## FIFO machinery: monotonicity of started jobs and the fresh-id counter -/

/-- Two states with the same job slot give the same started flag. -/
theorem jobStarted_congr {s s' : RunnerState} (id : Nat) (h : s'.jobs id = s.jobs id) :
    jobStarted s' id = jobStarted s id := by
  unfold jobStarted
  rw [h]

/-- `startJob` leaves every other job slot unchanged. -/
theorem startJob_jobs_ne (s : RunnerState) (id0 k : Nat) (h : k ≠ id0) :
    (startJob s id0).jobs k = s.jobs k := by
  cases hj : s.jobs id0 with
  | none => rw [startJob_eq_none s id0 hj]
  | some j =>
    rw [startJob_eq s id0 j hj]
    exact if_neg h

/-- `startJob` stamps the start time on a registered job. -/
theorem startJob_jobs_self (s : RunnerState) (id0 : Nat) (j : PipelineJob)
    (hj : s.jobs id0 = some j) :
    (startJob s id0).jobs id0 = some { j with start := some s.now } := by
  rw [startJob_eq s id0 j hj]
  exact if_pos rfl

/-- `startJob` keeps every started job started. -/
theorem jobStarted_startJob (s : RunnerState) (id0 id : Nat)
    (h : jobStarted s id = true) : jobStarted (startJob s id0) id = true := by
  by_cases hid : id = id0
  · subst hid
    cases hj : s.jobs id with
    | none =>
      unfold jobStarted at h
      rw [hj] at h
      simp at h
    | some j =>
      unfold jobStarted
      rw [startJob_jobs_self s id j hj]
      rfl
  · rw [jobStarted_congr id (startJob_jobs_ne s id0 id hid)]
    exact h

/-- The drain loop keeps every started job started. -/
theorem jobStarted_drainLoop (defs : Defs) (p : String) :
    ∀ (wl : List Nat) (s : RunnerState) (id : Nat),
      jobStarted s id = true → jobStarted (drainLoop defs p s wl) id = true := by
  intro wl
  induction wl with
  | nil =>
    intro s id h
    exact h
  | cons id0 rest ih =>
    intro s id h
    have hunfold : drainLoop defs p s (id0 :: rest)
        = if resolveScheduleAction defs s p = ScheduleAction.start then
            drainLoop defs p (startJob s id0) rest
          else
            setWaitList s p (id0 :: rest) := rfl
    rw [hunfold]
    by_cases hact : resolveScheduleAction defs s p = ScheduleAction.start
    · rw [if_pos hact]
      exact ih (startJob s id0) id (jobStarted_startJob s id0 id h)
    · rw [if_neg hact]
      exact h

/-- The drain loop never touches the fresh-id counter. -/
theorem drainLoop_nextId (defs : Defs) (p : String) :
    ∀ (wl : List Nat) (s : RunnerState), (drainLoop defs p s wl).nextId = s.nextId := by
  intro wl
  induction wl with
  | nil =>
    intro s
    rfl
  | cons id0 rest ih =>
    intro s
    have hunfold : drainLoop defs p s (id0 :: rest)
        = if resolveScheduleAction defs s p = ScheduleAction.start then
            drainLoop defs p (startJob s id0) rest
          else
            setWaitList s p (id0 :: rest) := rfl
    rw [hunfold]
    by_cases hact : resolveScheduleAction defs s p = ScheduleAction.start
    · rw [if_pos hact, ih (startJob s id0)]
      cases hj : s.jobs id0 with
      | none => rw [startJob_eq_none s id0 hj]
      | some j => rw [startJob_eq s id0 j hj]
    · rw [if_neg hact]
      rfl

/-- `jobCompleted` on a registered job, written out. -/
theorem jobCompleted_eq (defs : Defs) (s : RunnerState) (id : Nat) (err : Option String)
    (j : PipelineJob) (hj : s.jobs id = some j) :
    jobCompleted defs s id err
      = requestPersist (startJobsOnWaitList defs
          { s with jobs := fun k =>
            (if k = id
             then some { j with completed := true, endTime := some s.now, lastError := err }
             else s.jobs k) } j.pipeline) := by
  unfold jobCompleted
  rw [hj]

/-- Under the invariants, the `Replace` action pins down the pipeline
definition and a singleton wait list whose job is registered, waiting and
strictly below the fresh-id counter. -/
theorem resolve_replace_singleton (defs : Defs) (s : RunnerState) (p : String)
    (hinv : Inv defs s)
    (hact : resolveScheduleAction defs s p = ScheduleAction.replace) :
    ∃ pd prev jprev, defs p = some pd
      ∧ s.waitListByPipeline p = [prev]
      ∧ s.jobs prev = some jprev
      ∧ jprev.pipeline = p ∧ jprev.start = none ∧ jprev.completed = false
      ∧ jprev.canceled = false ∧ prev ∈ s.jobsByPipeline p
      ∧ prev < s.nextId := by
  obtain ⟨h1, h2, h3, h4, h5⟩ := hinv
  obtain ⟨hge, hql, hrep, hwlne⟩ := (resolve_replace_iff defs s p).mp hact
  have hdpex : ∃ pd, defs p = some pd := by
    cases hdp' : defs p with
    | some pd => exact ⟨pd, rfl⟩
    | none =>
      exfalso
      unfold pipelineDefOf at hrep
      rw [hdp'] at hrep
      simp [zeroPipelineDef] at hrep
  obtain ⟨pd, hdp⟩ := hdpex
  have hlen1 : (s.waitListByPipeline p).length = 1 := by
    have hb := h4 p hrep
    have hpos := List.length_pos.mpr hwlne
    omega
  obtain ⟨prev, hwl⟩ := List.length_eq_one.mp hlen1
  have hprevmem : prev ∈ s.waitListByPipeline p := by
    rw [hwl]
    exact List.mem_singleton_self _
  obtain ⟨jprev, ha, hb, hc, hd, he, hf⟩ := (h3 p).2 prev hprevmem
  exact ⟨pd, prev, jprev, hdp, hwl, ha, hb, hc, hd, he, hf, (h1 prev jprev ha).1⟩

/-- `ScheduleAsync` keeps every started job started. -/
theorem scheduleAsync_started (defs : Defs) (s : RunnerState) (p u : String)
    (hinv : Inv defs s) (id : Nat) (h : jobStarted s id = true) :
    jobStarted (ScheduleAsync defs s p u).1 id = true := by
  have hne : id ≠ s.nextId := by
    intro he
    rw [he] at h
    simp [jobStarted, fresh_id_unregistered s hinv.1] at h
  cases hdp : defs p with
  | none =>
    have he : ScheduleAsync defs s p u = (s, .error .unknownPipeline) := by
      unfold ScheduleAsync
      rw [hdp]
    rw [he]
    exact h
  | some pd =>
    cases hact : resolveScheduleAction defs s p with
    | noQueue =>
      have he : ScheduleAsync defs s p u = (s, .error .queueDisabled) := by
        unfold ScheduleAsync
        rw [hdp, hact]
      rw [he]
      exact h
    | queueFull =>
      have he : ScheduleAsync defs s p u = (s, .error .queueFull) := by
        unfold ScheduleAsync
        rw [hdp, hact]
      rw [he]
      exact h
    | queue =>
      rw [scheduleAsync_queue_eq defs s p u pd hdp hact]
      have hjb : (requestPersist (setWaitList (registerJob s (newJob s p u pd)) p
          (s.waitListByPipeline p ++ [s.nextId]))).jobs id = s.jobs id :=
        registerJob_jobs_ne s _ id (by rw [newJob_id]; exact hne)
      rw [jobStarted_congr id hjb]
      exact h
    | start =>
      rw [scheduleAsync_start_eq defs s p u pd hdp hact]
      show jobStarted (startJob (registerJob s (newJob s p u pd)) s.nextId) id = true
      apply jobStarted_startJob
      have hjb : (registerJob s (newJob s p u pd)).jobs id = s.jobs id :=
        registerJob_jobs_ne s _ id (by rw [newJob_id]; exact hne)
      rw [jobStarted_congr id hjb]
      exact h
    | replace =>
      obtain ⟨pd2, prev, jprev, hdp2, hwl, hprev, hpp, hpstart, hpcomp, hpcanc, hpmem, hplt⟩ :=
        resolve_replace_singleton defs s p hinv hact
      rw [hdp] at hdp2
      injection hdp2 with hpd
      subst hpd
      have hneprev : id ≠ prev := by
        intro he
        rw [he] at h
        simp [jobStarted, hprev, hpstart] at h
      rw [scheduleAsync_replace_eq defs s p u pd prev jprev hdp hact hwl hprev hplt]
      have hjb : (requestPersist (setWaitList
          { registerJob s (newJob s p u pd) with
            jobs := fun k => (if k = prev then some { jprev with canceled := true }
              else (registerJob s (newJob s p u pd)).jobs k) }
          p [s.nextId])).jobs id = s.jobs id := by
        show (if id = prev then some { jprev with canceled := true }
            else (registerJob s (newJob s p u pd)).jobs id) = s.jobs id
        rw [if_neg hneprev]
        exact registerJob_jobs_ne s _ id (by rw [newJob_id]; exact hne)
      rw [jobStarted_congr id hjb]
      exact h

/-- A started job stays started across one critical section. -/
theorem jobStarted_mono_step (defs : Defs) {s s' : RunnerState} (hstep : Step defs s s')
    (hinv : Inv defs s) (id : Nat) (h : jobStarted s id = true) :
    jobStarted s' id = true := by
  cases hstep with
  | schedule p u => exact scheduleAsync_started defs s p u hinv id h
  | complete id0 err j hj hstart hcomp =>
    rw [jobCompleted_eq defs s id0 err j hj]
    set s1 : RunnerState := { s with jobs := fun k =>
      (if k = id0
       then some { j with completed := true, endTime := some s.now, lastError := err }
       else s.jobs k) } with hs1
    have h1 : jobStarted s1 id = true := by
      by_cases hid : id = id0
      · subst hid
        unfold jobStarted
        have hsl : s1.jobs id
            = some { j with completed := true, endTime := some s.now, lastError := err } :=
          if_pos rfl
        rw [hsl]
        have h' : j.start.isSome = true := by
          unfold jobStarted at h
          rw [hj] at h
          exact h
        exact h'
      · rw [jobStarted_congr id (if_neg hid)]
        exact h
    exact jobStarted_drainLoop defs j.pipeline (s1.waitListByPipeline j.pipeline) s1 id h1
  | drain p => exact jobStarted_drainLoop defs p _ s id h
  | advance t => exact h

/-- The fresh-id counter never decreases across a critical section. -/
theorem step_nextId_mono (defs : Defs) {s s' : RunnerState} (hstep : Step defs s s')
    (hinv : Inv defs s) : s.nextId ≤ s'.nextId := by
  cases hstep with
  | schedule p u =>
    cases hdp : defs p with
    | none =>
      have he : ScheduleAsync defs s p u = (s, .error .unknownPipeline) := by
        unfold ScheduleAsync
        rw [hdp]
      rw [he]
    | some pd =>
      cases hact : resolveScheduleAction defs s p with
      | noQueue =>
        have he : ScheduleAsync defs s p u = (s, .error .queueDisabled) := by
          unfold ScheduleAsync
          rw [hdp, hact]
        rw [he]
      | queueFull =>
        have he : ScheduleAsync defs s p u = (s, .error .queueFull) := by
          unfold ScheduleAsync
          rw [hdp, hact]
        rw [he]
      | queue =>
        rw [scheduleAsync_queue_eq defs s p u pd hdp hact]
        exact Nat.le_succ s.nextId
      | start =>
        rw [scheduleAsync_start_eq defs s p u pd hdp hact]
        have hj1 : (registerJob s (newJob s p u pd)).jobs s.nextId
            = some (newJob s p u pd) := by
          have h' := registerJob_jobs_self s (newJob s p u pd)
          rw [newJob_id] at h'
          exact h'
        rw [startJob_eq _ s.nextId _ hj1]
        exact Nat.le_succ s.nextId
      | replace =>
        obtain ⟨pd2, prev, jprev, hdp2, hwl, hprev, hpp, hpstart, hpcomp, hpcanc, hpmem, hplt⟩ :=
          resolve_replace_singleton defs s p hinv hact
        rw [hdp] at hdp2
        injection hdp2 with hpd
        subst hpd
        rw [scheduleAsync_replace_eq defs s p u pd prev jprev hdp hact hwl hprev hplt]
        exact Nat.le_succ s.nextId
  | complete id err j hj hstart hcomp =>
    rw [jobCompleted_eq defs s id err j hj]
    exact Nat.le_of_eq (Eq.symm (drainLoop_nextId defs j.pipeline _ _))
  | drain p => exact Nat.le_of_eq (Eq.symm (drainLoop_nextId defs p _ _))
  | advance t => exact Nat.le_refl _

/-! ## FIFO machinery: wait-list order -/

/-- The earlier job of an admission pair is on the list. -/
theorem beforeOn_mem_left {l : List Nat} {a b : Nat} (h : beforeOn l a b) : a ∈ l :=
  h.subset (List.mem_cons_self a [b])

/-- The later job of an admission pair is on the list. -/
theorem beforeOn_mem_right {l : List Nat} {a b : Nat} (h : beforeOn l a b) : b ∈ l :=
  h.subset (List.mem_cons_of_mem a (List.mem_singleton_self b))

/-- Appending to the wait list keeps the admission order. -/
theorem beforeOn_append {l : List Nat} (l' : List Nat) {a b : Nat} (h : beforeOn l a b) :
    beforeOn (l ++ l') a b :=
  List.Sublist.trans h (List.sublist_append_left l l')

/-- An admission pair on a concatenation sits in the left part, in the right
part, or straddles the seam. -/
theorem beforeOn_split {l1 l2 : List Nat} {a b : Nat} (h : beforeOn (l1 ++ l2) a b) :
    beforeOn l1 a b ∨ beforeOn l2 a b ∨ (a ∈ l1 ∧ b ∈ l2) := by
  unfold beforeOn at h
  rcases List.sublist_append_iff.mp h with ⟨t1, t2, hsplit, hs1, hs2⟩
  cases t1 with
  | nil =>
    right; left
    have ht2 : t2 = [a, b] := hsplit.symm
    rw [ht2] at hs2
    exact hs2
  | cons x t1' =>
    cases t1' with
    | nil =>
      have h' : [a, b] = x :: t2 := hsplit
      injection h' with h1 h2
      right; right
      subst h1
      rw [← h2] at hs2
      exact ⟨hs1.subset (List.mem_singleton_self a), hs2.subset (List.mem_singleton_self b)⟩
    | cons y t1'' =>
      left
      have h' : [a, b] = x :: y :: (t1'' ++ t2) := hsplit
      injection h' with h1 h2
      injection h2 with h2a h2b
      have ht1'' : t1'' = [] := (List.append_eq_nil.mp h2b.symm).1
      subst ht1''
      rw [← h1, ← h2a] at hs1
      exact hs1

/-- On a duplicate-free list, if the later job of an admission pair sits in
the popped prefix, so does the earlier one. -/
theorem beforeOn_take {l : List Nat} {a b : Nat} {k : Nat} (hnd : l.Nodup)
    (h : beforeOn l a b) (hb : b ∈ l.take k) : a ∈ l.take k := by
  have h' : beforeOn (l.take k ++ l.drop k) a b := by
    rw [List.take_append_drop]
    exact h
  rcases beforeOn_split h' with h1 | h2 | h3
  · exact beforeOn_mem_left h1
  · exact absurd (beforeOn_mem_right h2)
      (fun hc => List.disjoint_take_drop hnd (Nat.le_refl k) hb hc)
  · exact h3.1

/-- An admission pair survives dropping a prefix that misses its earlier
job. -/
theorem beforeOn_drop {l : List Nat} {a b : Nat} {k : Nat}
    (h : beforeOn l a b) (ha : a ∉ l.take k) : beforeOn (l.drop k) a b := by
  have h' : beforeOn (l.take k ++ l.drop k) a b := by
    rw [List.take_append_drop]
    exact h
  rcases beforeOn_split h' with h1 | h2 | h3
  · exact absurd (beforeOn_mem_left h1) ha
  · exact h2
  · exact absurd h3.1 ha

/-- Transfer principle for the FIFO invariant between two states. -/
theorem fifoInv_transfer {s s2 : RunnerState} {p : String} {a b : Nat}
    (hfi : FifoInv s p a b)
    (hja : jobStarted s a = true → jobStarted s2 a = true)
    (hjb : jobStarted s b = false → jobStarted s2 b = false)
    (hm : jobStarted s b = false →
      (∀ q, b ∈ s.waitListByPipeline q → q = p ∧ beforeOn (s.waitListByPipeline p) a b) →
      ∀ q, b ∈ s2.waitListByPipeline q → q = p ∧ beforeOn (s2.waitListByPipeline p) a b) :
    FifoInv s2 p a b := by
  cases hfi with
  | inl h => exact Or.inl (hja h)
  | inr h => exact Or.inr ⟨hjb h.1, hm h.1 h.2⟩

/-- Draining any pipeline's wait list preserves the FIFO invariant: it only
starts a prefix of that list, and started prefixes are closed under the
admission order. -/
theorem fifoInv_drain (defs : Defs) (s : RunnerState) (q p : String) (a b : Nat)
    (hinv : Inv defs s) (hfi : FifoInv s p a b) :
    FifoInv (startJobsOnWaitList defs s q) p a b := by
  obtain ⟨h1, h2, h3, h4, h5⟩ := hinv
  obtain ⟨k, hk, hwlp, hwlq, hjobs, hstarted, hbp, hnext, hnow, hI1, hI2, hI3, hstop⟩ :=
    drainLoop_spec defs q (s.waitListByPipeline q) s h1 h2 h5 (h3 q).1 ((h3 q).2)
  show FifoInv (drainLoop defs q s (s.waitListByPipeline q)) p a b
  set sd := drainLoop defs q s (s.waitListByPipeline q) with hsd
  cases hfi with
  | inl hsa =>
    exact Or.inl (jobStarted_drainLoop defs q (s.waitListByPipeline q) s a hsa)
  | inr hr =>
    obtain ⟨hbn, hmem⟩ := hr
    by_cases hq : q = p
    · subst hq
      by_cases hbwl : b ∈ s.waitListByPipeline q
      · have hbefore := (hmem q hbwl).2
        by_cases hatake : a ∈ (s.waitListByPipeline q).take k
        · exact Or.inl (hstarted a hatake)
        · have hbtake : b ∉ (s.waitListByPipeline q).take k := by
            intro hc
            exact hatake (beforeOn_take (h3 q).1 hbefore hc)
          refine Or.inr ⟨?_, ?_⟩
          · rw [jobStarted_congr b (hjobs b hbtake)]
            exact hbn
          · intro q' hq'
            by_cases hq'p : q' = q
            · refine ⟨hq'p, ?_⟩
              rw [hwlp]
              exact beforeOn_drop hbefore hatake
            · rw [hwlq q' hq'p] at hq'
              exact absurd (hmem q' hq').1 hq'p
      · have hbtake : b ∉ (s.waitListByPipeline q).take k :=
          fun hc => hbwl (List.take_subset _ _ hc)
        refine Or.inr ⟨?_, ?_⟩
        · rw [jobStarted_congr b (hjobs b hbtake)]
          exact hbn
        · intro q' hq'
          by_cases hq'p : q' = q
          · subst hq'p
            rw [hwlp] at hq'
            exact absurd (List.drop_subset _ _ hq') hbwl
          · rw [hwlq q' hq'p] at hq'
            exact absurd (hmem q' hq').1 hq'p
    · have hbq : b ∉ s.waitListByPipeline q := by
        intro hc
        exact hq (hmem q hc).1
      have hbtake : b ∉ (s.waitListByPipeline q).take k :=
        fun hc => hbq (List.take_subset _ _ hc)
      refine Or.inr ⟨?_, ?_⟩
      · rw [jobStarted_congr b (hjobs b hbtake)]
        exact hbn
      · intro q' hq'
        by_cases hq'q : q' = q
        · subst hq'q
          rw [hwlp] at hq'
          exact absurd (List.drop_subset _ _ hq') hbq
        · rw [hwlq q' hq'q] at hq'
          have h' := hmem q' hq'
          refine ⟨h'.1, ?_⟩
          rw [hwlq p (fun hc => hq hc.symm)]
          exact h'.2

/-- `ScheduleAsync` preserves the FIFO invariant for any job pair below the
fresh-id counter: the freshly admitted job can only be appended behind the
pair or replace a singleton wait list the pair is not on. -/
theorem fifoInv_schedule (defs : Defs) (s : RunnerState) (p' u p : String) (a b : Nat)
    (hinv : Inv defs s) (hblt : b < s.nextId) (hfi : FifoInv s p a b) :
    FifoInv (ScheduleAsync defs s p' u).1 p a b := by
  have hja := scheduleAsync_started defs s p' u hinv a
  have hbne : b ≠ s.nextId := Nat.ne_of_lt hblt
  cases hdp : defs p' with
  | none =>
    have he : ScheduleAsync defs s p' u = (s, .error .unknownPipeline) := by
      unfold ScheduleAsync
      rw [hdp]
    rw [he]
    exact hfi
  | some pd =>
    cases hact : resolveScheduleAction defs s p' with
    | noQueue =>
      have he : ScheduleAsync defs s p' u = (s, .error .queueDisabled) := by
        unfold ScheduleAsync
        rw [hdp, hact]
      rw [he]
      exact hfi
    | queueFull =>
      have he : ScheduleAsync defs s p' u = (s, .error .queueFull) := by
        unfold ScheduleAsync
        rw [hdp, hact]
      rw [he]
      exact hfi
    | queue =>
      have heq := scheduleAsync_queue_eq defs s p' u pd hdp hact
      refine fifoInv_transfer hfi hja ?_ ?_
      · intro hbn
        have hjb2 : (ScheduleAsync defs s p' u).1.jobs b = s.jobs b := by
          rw [heq]
          exact registerJob_jobs_ne s _ b (by rw [newJob_id]; exact hbne)
        rw [jobStarted_congr b hjb2]
        exact hbn
      · intro hbn hmem q' hq'
        have hwlq2 : ∀ r, r ≠ p' → (ScheduleAsync defs s p' u).1.waitListByPipeline r
            = s.waitListByPipeline r := by
          intro r hr
          rw [heq]
          exact if_neg hr
        have hwlp2 : (ScheduleAsync defs s p' u).1.waitListByPipeline p'
            = s.waitListByPipeline p' ++ [s.nextId] := by
          rw [heq]
          exact if_pos rfl
        have hgoalp : beforeOn (s.waitListByPipeline p) a b →
            beforeOn ((ScheduleAsync defs s p' u).1.waitListByPipeline p) a b := by
          intro hbef
          by_cases hpp' : p = p'
          · rw [hpp', hwlp2]
            exact beforeOn_append _ (hpp' ▸ hbef)
          · rw [hwlq2 p hpp']
            exact hbef
        by_cases hq2 : q' = p'
        · rw [hq2, hwlp2] at hq'
          rcases List.mem_append.mp hq' with hin | hin
          · have h' := hmem p' hin
            exact ⟨hq2.trans h'.1, hgoalp h'.2⟩
          · exact absurd (List.mem_singleton.mp hin) hbne
        · rw [hwlq2 q' hq2] at hq'
          have h' := hmem q' hq'
          exact ⟨h'.1, hgoalp h'.2⟩
    | start =>
      have heq := scheduleAsync_start_eq defs s p' u pd hdp hact
      have hj1 : (registerJob s (newJob s p' u pd)).jobs s.nextId
          = some (newJob s p' u pd) := by
        have h' := registerJob_jobs_self s (newJob s p' u pd)
        rw [newJob_id] at h'
        exact h'
      refine fifoInv_transfer hfi hja ?_ ?_
      · intro hbn
        have hjb2 : (ScheduleAsync defs s p' u).1.jobs b = s.jobs b := by
          rw [heq]
          show (startJob (registerJob s (newJob s p' u pd)) s.nextId).jobs b = s.jobs b
          rw [startJob_jobs_ne _ s.nextId b hbne]
          exact registerJob_jobs_ne s _ b (by rw [newJob_id]; exact hbne)
        rw [jobStarted_congr b hjb2]
        exact hbn
      · intro hbn hmem q' hq'
        have hwl2 : ∀ r, (ScheduleAsync defs s p' u).1.waitListByPipeline r
            = s.waitListByPipeline r := by
          intro r
          rw [heq]
          show (startJob (registerJob s (newJob s p' u pd)) s.nextId).waitListByPipeline r
            = s.waitListByPipeline r
          rw [startJob_eq _ s.nextId _ hj1]
          rfl
        rw [hwl2 q'] at hq'
        have h' := hmem q' hq'
        refine ⟨h'.1, ?_⟩
        rw [hwl2 p]
        exact h'.2
    | replace =>
      obtain ⟨pd2, prev, jprev, hdp2, hwl, hprev, hpp, hpstart, hpcomp, hpcanc, hpmem, hplt⟩ :=
        resolve_replace_singleton defs s p' hinv hact
      rw [hdp] at hdp2
      injection hdp2 with hpd
      subst hpd
      have heq := scheduleAsync_replace_eq defs s p' u pd prev jprev hdp hact hwl hprev hplt
      refine fifoInv_transfer hfi hja ?_ ?_
      · intro hbn
        have hjb2 : (ScheduleAsync defs s p' u).1.jobs b
            = (if b = prev then some { jprev with canceled := true } else s.jobs b) := by
          rw [heq]
          show (if b = prev then some { jprev with canceled := true }
              else (registerJob s (newJob s p' u pd)).jobs b)
            = (if b = prev then some { jprev with canceled := true } else s.jobs b)
          by_cases hbp' : b = prev
          · rw [if_pos hbp', if_pos hbp']
          · rw [if_neg hbp', if_neg hbp']
            exact registerJob_jobs_ne s _ b (by rw [newJob_id]; exact hbne)
        by_cases hbp' : b = prev
        · unfold jobStarted
          rw [hjb2, if_pos hbp']
          show jprev.start.isSome = false
          rw [hpstart]
          rfl
        · unfold jobStarted at hbn ⊢
          rw [hjb2, if_neg hbp']
          exact hbn
      · intro hbn hmem q' hq'
        have hwlq2 : ∀ r, r ≠ p' → (ScheduleAsync defs s p' u).1.waitListByPipeline r
            = s.waitListByPipeline r := by
          intro r hr
          rw [heq]
          exact if_neg hr
        have hwlp2 : (ScheduleAsync defs s p' u).1.waitListByPipeline p' = [s.nextId] := by
          rw [heq]
          exact if_pos rfl
        by_cases hq2 : q' = p'
        · rw [hq2, hwlp2] at hq'
          exact absurd (List.mem_singleton.mp hq') hbne
        · rw [hwlq2 q' hq2] at hq'
          have h' := hmem q' hq'
          refine ⟨h'.1, ?_⟩
          have hpnep' : p ≠ p' := by
            rw [← h'.1]
            exact hq2
          rw [hwlq2 p hpnep']
          exact h'.2

/-- One critical section preserves the FIFO invariant for pairs below the
fresh-id counter. -/
theorem fifoInv_step (defs : Defs) {s s' : RunnerState} (hstep : Step defs s s')
    (hinv : Inv defs s) (p : String) (a b : Nat) (hblt : b < s.nextId)
    (hfi : FifoInv s p a b) : FifoInv s' p a b := by
  cases hstep with
  | schedule p' u => exact fifoInv_schedule defs s p' u p a b hinv hblt hfi
  | complete id0 err j hj hstart hcomp =>
    rw [jobCompleted_eq defs s id0 err j hj]
    set s1 : RunnerState := { s with jobs := fun k =>
      (if k = id0
       then some { j with completed := true, endTime := some s.now, lastError := err }
       else s.jobs k) } with hs1
    have hfi1 : FifoInv s1 p a b := by
      refine fifoInv_transfer hfi ?_ ?_ ?_
      · intro hsa
        by_cases hid : a = id0
        · subst hid
          unfold jobStarted
          have hsl : s1.jobs a
              = some { j with completed := true, endTime := some s.now, lastError := err } :=
            if_pos rfl
          rw [hsl]
          have h' : j.start.isSome = true := by
            unfold jobStarted at hsa
            rw [hj] at hsa
            exact hsa
          exact h'
        · have hsa2 : s1.jobs a = s.jobs a := if_neg hid
          rw [jobStarted_congr a hsa2]
          exact hsa
      · intro hbn
        have hbid : b ≠ id0 := by
          intro he
          rw [he] at hbn
          have h' : j.start.isSome = false := by
            unfold jobStarted at hbn
            rw [hj] at hbn
            exact hbn
          rw [hstart] at h'
          cases h'
        have hsb : s1.jobs b = s.jobs b := if_neg hbid
        rw [jobStarted_congr b hsb]
        exact hbn
      · intro _ hmem q' hq'
        exact hmem q' hq'
    have hinv1 : Inv defs s1 := completeUpdate_inv defs s id0 err j hj hstart hinv
    exact fifoInv_drain defs s1 j.pipeline p a b hinv1 hfi1
  | drain q => exact fifoInv_drain defs s q p a b hinv hfi
  | advance t =>
    refine fifoInv_transfer hfi (fun h => h) (fun h => h) ?_
    intro _ hmem q' hq'
    exact hmem q' hq'

/-- Chaining reachability: every state reachable from a reachable state is
reachable. -/
theorem reachableFrom_reachable (defs : Defs) {s s' : RunnerState}
    (h : Reachable defs s) (hf : ReachableFrom defs s s') : Reachable defs s' := by
  induction hf with
  | refl => exact h
  | step hsteps hstep ih => exact Reachable.step ih hstep

/-- The FIFO invariant, once established at a reachable state for a pair
below the fresh-id counter, holds in every later state. -/
theorem fifoInv_reachableFrom (defs : Defs) {s s' : RunnerState} (hre : Reachable defs s)
    (hf : ReachableFrom defs s s') (p : String) (a b : Nat) (hblt : b < s.nextId)
    (hfi : FifoInv s p a b) : FifoInv s' p a b ∧ b < s'.nextId := by
  induction hf with
  | refl => exact ⟨hfi, hblt⟩
  | step hsteps hstep ih =>
    obtain ⟨hfit, hbt⟩ := ih
    have hinvt := reachable_inv defs (reachableFrom_reachable defs hre hsteps)
    exact ⟨fifoInv_step defs hstep hinvt p a b hbt hfit,
      Nat.lt_of_lt_of_le hbt (step_nextId_mono defs hstep hinvt)⟩

/-! ## Order facts for the string comparison and the task comparator -/

/-- The lexicographic order is irreflexive. -/
theorem lexLt_irrefl : ∀ l : List Char, lexLt l l = false
  | [] => rfl
  | x :: xs => by
    simp only [lexLt]
    rw [if_neg (Nat.lt_irrefl _), if_neg (Nat.lt_irrefl _)]
    exact lexLt_irrefl xs

/-- The lexicographic order is asymmetric. -/
theorem lexLt_asymm : ∀ a b : List Char, lexLt a b = true → lexLt b a = false := by
  intro a
  induction a with
  | nil =>
    intro b h
    cases b with
    | nil => exact absurd h (by simp [lexLt])
    | cons y ys => simp [lexLt]
  | cons x xs ih =>
    intro b h
    cases b with
    | nil => exact absurd h (by simp [lexLt])
    | cons y ys =>
      simp only [lexLt] at h ⊢
      by_cases h1 : x.toNat < y.toNat
      · rw [if_neg (by omega), if_pos h1]
      · rw [if_neg h1] at h
        by_cases h2 : y.toNat < x.toNat
        · rw [if_pos h2] at h
          cases h
        · rw [if_neg h2] at h
          rw [if_neg h2, if_neg h1]
          exact ih ys h

/-- The lexicographic order is transitive. -/
theorem lexLt_trans : ∀ a b c : List Char,
    lexLt a b = true → lexLt b c = true → lexLt a c = true := by
  intro a
  induction a with
  | nil =>
    intro b c hab hbc
    cases c with
    | nil => exact absurd hbc (by simp [lexLt])
    | cons z zs => simp [lexLt]
  | cons x xs ih =>
    intro b c hab hbc
    cases b with
    | nil => exact absurd hab (by simp [lexLt])
    | cons y ys =>
      cases c with
      | nil => exact absurd hbc (by simp [lexLt])
      | cons z zs =>
        simp only [lexLt] at hab hbc ⊢
        by_cases h1 : x.toNat < y.toNat
        · by_cases h2 : y.toNat < z.toNat
          · rw [if_pos (by omega)]
          · rw [if_neg h2] at hbc
            by_cases h3 : z.toNat < y.toNat
            · rw [if_pos h3] at hbc
              cases hbc
            · rw [if_pos (by omega)]
        · rw [if_neg h1] at hab
          by_cases h1' : y.toNat < x.toNat
          · rw [if_pos h1'] at hab
            cases hab
          · rw [if_neg h1'] at hab
            by_cases h2 : y.toNat < z.toNat
            · rw [if_pos (by omega)]
            · rw [if_neg h2] at hbc
              by_cases h3 : z.toNat < y.toNat
              · rw [if_pos h3] at hbc
                cases hbc
              · rw [if_neg h3] at hbc
                rw [if_neg (by omega), if_neg (by omega)]
                exact ih ys zs hab hbc

/-- Two lists that are lexicographically incomparable are equal. -/
theorem lexLt_eq_of_not_lt : ∀ a b : List Char,
    lexLt a b = false → lexLt b a = false → a = b := by
  intro a
  induction a with
  | nil =>
    intro b hab hba
    cases b with
    | nil => rfl
    | cons y ys => exact absurd hab (by simp [lexLt])
  | cons x xs ih =>
    intro b hab hba
    cases b with
    | nil => exact absurd hba (by simp [lexLt])
    | cons y ys =>
      simp only [lexLt] at hab hba
      by_cases h1 : x.toNat < y.toNat
      · rw [if_pos h1] at hab
        cases hab
      · by_cases h2 : y.toNat < x.toNat
        · rw [if_pos h2] at hba
          cases hba
        · rw [if_neg h1, if_neg h2] at hab
          rw [if_neg h2, if_neg h1] at hba
          have h3 : x.toNat = y.toNat := by omega
          have hxy : x = y := Char.ext (UInt32.ext_iff.mpr h3)
          subst hxy
          rw [ih ys hab hba]

/-- The string order is total. -/
theorem strLE_total (a b : String) : StrLE a b ∨ StrLE b a := by
  cases hb : strLtb b a with
  | false =>
    left
    unfold StrLE strLeb
    rw [hb]
    rfl
  | true =>
    right
    unfold StrLE strLeb
    unfold strLtb at hb ⊢
    rw [lexLt_asymm _ _ hb]
    rfl

/-- The string order is transitive. -/
theorem strLE_trans (a b c : String) (hab : StrLE a b) (hbc : StrLE b c) : StrLE a c := by
  unfold StrLE strLeb strLtb at hab hbc ⊢
  simp only [Bool.not_eq_true'] at hab hbc ⊢
  cases hca : lexLt c.data a.data with
  | false => rfl
  | true =>
    exfalso
    cases hablt : lexLt a.data b.data with
    | true =>
      have h' := lexLt_trans _ _ _ hca hablt
      rw [hbc] at h'
      cases h'
    | false =>
      have heq := lexLt_eq_of_not_lt _ _ hablt hab
      rw [heq] at hca
      rw [hbc] at hca
      cases hca

/-- The string order is antisymmetric. -/
theorem strLE_antisymm (a b : String) (hab : StrLE a b) (hba : StrLE b a) : a = b := by
  unfold StrLE strLeb strLtb at hab hba
  simp only [Bool.not_eq_true'] at hab hba
  exact String.ext (lexLt_eq_of_not_lt _ _ hba hab)

instance : IsTotal String StrLE := ⟨strLE_total⟩

instance : IsTrans String StrLE := ⟨fun a b c => strLE_trans a b c⟩

instance : IsAntisymm String StrLE := ⟨strLE_antisymm⟩

/-- `sort.Strings` sorts ascending. -/
theorem sortStrings_sorted (l : List String) : (sortStrings l).Sorted StrLE :=
  List.sorted_insertionSort StrLE l

/-- `sort.Strings` permutes its input. -/
theorem sortStrings_perm (l : List String) : List.Perm (sortStrings l) l :=
  List.perm_insertionSort StrLE l

/-- `sort.Strings` is a function of the multiset of its input. -/
theorem sortStrings_eq_of_perm {l l' : List String} (h : List.Perm l l') :
    sortStrings l = sortStrings l' :=
  List.eq_of_perm_of_sorted ((sortStrings_perm l).trans (h.trans (sortStrings_perm l').symm))
    (sortStrings_sorted l) (sortStrings_sorted l')

instance (ord : String → Nat) : IsTotal JTask (taskLE ord) := ⟨by
  intro a b
  unfold taskLE
  rcases Nat.lt_trichotomy (ord a.name) (ord b.name) with h | h | h
  · exact Or.inl (Or.inl h)
  · rcases strLE_total a.name b.name with h2 | h2
    · exact Or.inl (Or.inr ⟨h, h2⟩)
    · exact Or.inr (Or.inr ⟨h.symm, h2⟩)
  · exact Or.inr (Or.inl h)⟩

instance (ord : String → Nat) : IsTrans JTask (taskLE ord) := ⟨by
  intro a b c hab hbc
  unfold taskLE at hab hbc ⊢
  rcases hab with h1 | ⟨h1, h1'⟩
  · rcases hbc with h2 | ⟨h2, h2'⟩
    · exact Or.inl (by omega)
    · exact Or.inl (by omega)
  · rcases hbc with h2 | ⟨h2, h2'⟩
    · exact Or.inl (by omega)
    · exact Or.inr ⟨by omega, strLE_trans _ _ _ h1' h2'⟩⟩

/-- Sorted lists that are permutations of each other are equal, given
antisymmetry of the relation on the elements at hand. -/
theorem sorted_eq_of_perm_mem {α : Type} {r : α → α → Prop} :
    ∀ {l₁ l₂ : List α}, List.Perm l₁ l₂ → l₁.Sorted r → l₂.Sorted r →
      (∀ a ∈ l₁, ∀ b ∈ l₁, r a b → r b a → a = b) → l₁ = l₂ := by
  intro l₁
  induction l₁ with
  | nil =>
    intro l₂ hp _ _ _
    exact hp.nil_eq
  | cons a t₁ ih =>
    intro l₂ hp hs₁ hs₂ hanti
    cases l₂ with
    | nil => exact absurd hp.symm.nil_eq (by simp)
    | cons b t₂ =>
      have hbmem : b ∈ a :: t₁ := hp.mem_iff.mpr (List.mem_cons_self b t₂)
      have hamem : a ∈ b :: t₂ := hp.mem_iff.mp (List.mem_cons_self a t₁)
      have hab : a = b := by
        rcases List.mem_cons.mp hbmem with h1 | h1
        · exact h1.symm
        rcases List.mem_cons.mp hamem with h2 | h2
        · exact h2
        have hrab : r a b := (List.sorted_cons.mp hs₁).1 b h1
        have hrba : r b a := (List.sorted_cons.mp hs₂).1 a h2
        exact hanti a (List.mem_cons_self a t₁) b hbmem hrab hrba
      subst hab
      have hp' : List.Perm t₁ t₂ := hp.cons_inv
      have ht := ih hp' (List.sorted_cons.mp hs₁).2 (List.sorted_cons.mp hs₂).2
        (fun x hx y hy hxy hyx =>
          hanti x (List.mem_cons_of_mem a hx) y (List.mem_cons_of_mem a hy) hxy hyx)
      rw [ht]

/-! ## Kahn loop: unfolding equations and permutation invariance -/

/-- The Kahn loop on an empty queue returns the order map. -/
theorem kahnLoop_nil (names : List String) (inc : String → List String) (ord : String → Nat)
    (i : Nat) : kahnLoop names inc ord i [] = ord := by
  unfold kahnLoop
  rfl

/-- One iteration of the Kahn loop, written out. -/
theorem kahnLoop_cons (names : List String) (inc : String → List String) (ord : String → Nat)
    (i : Nat) (n : String) (rest : List String) :
    kahnLoop names inc ord i (n :: rest)
      = kahnLoop names
          (fun m => (inc m).filter (fun u => u != n))
          (fun m => if m = n then i else ord m)
          (i + 1)
          (sortStrings (rest ++ names.filter
            (fun m => (inc m).contains n && (((inc m).filter (fun u => u != n)).isEmpty)))) := by
  conv_lhs => unfold kahnLoop

/-- The Kahn loop depends on the node list only up to permutation: the only
use of the node list is a filter that is immediately re-sorted. -/
theorem kahnLoop_perm :
    ∀ (N : Nat) (names names' : List String) (inc : String → List String)
      (ord : String → Nat) (i : Nat) (queue : List String),
      List.Perm names names' →
      queue.length + sumInc names inc ≤ N →
      kahnLoop names inc ord i queue = kahnLoop names' inc ord i queue := by
  intro N
  induction N with
  | zero =>
    intro names names' inc ord i queue hperm hle
    have hq : queue = [] := List.eq_nil_of_length_eq_zero (by omega)
    subst hq
    rw [kahnLoop_nil, kahnLoop_nil]
  | succ N ih =>
    intro names names' inc ord i queue hperm hle
    cases queue with
    | nil => rw [kahnLoop_nil, kahnLoop_nil]
    | cons n rest =>
      rw [kahnLoop_cons, kahnLoop_cons]
      have hfiltperm : List.Perm
          (names.filter
            (fun m => (inc m).contains n && (((inc m).filter (fun u => u != n)).isEmpty)))
          (names'.filter
            (fun m => (inc m).contains n && (((inc m).filter (fun u => u != n)).isEmpty))) :=
        hperm.filter _
      have hqueue_eq : sortStrings (rest ++ names.filter
            (fun m => (inc m).contains n && (((inc m).filter (fun u => u != n)).isEmpty)))
          = sortStrings (rest ++ names'.filter
            (fun m => (inc m).contains n && (((inc m).filter (fun u => u != n)).isEmpty))) :=
        sortStrings_eq_of_perm (List.Perm.append_left rest hfiltperm)
      rw [hqueue_eq]
      refine ih names names' _ _ _ _ hperm ?_
      have hlen : (sortStrings (rest ++ names'.filter
            (fun m => (inc m).contains n && (((inc m).filter (fun u => u != n)).isEmpty)))).length
          = rest.length + (names.filter
            (fun m => (inc m).contains n && (((inc m).filter (fun u => u != n)).isEmpty))).length := by
        rw [(sortStrings_perm _).length_eq, List.length_append, ← hfiltperm.length_eq]
      have hstep := sumInc_filter_step names inc n
      simp only [List.length_cons] at hle
      omega

/-! ## Task lookup by name -/

/-- With duplicate-free names, a task of a job is determined by its name. -/
theorem name_mem_unique {jt : List JTask} (hnd : (jt.map (fun t => t.name)).Nodup)
    {t t' : JTask} (ht : t ∈ jt) (ht' : t' ∈ jt) (h : t.name = t'.name) : t = t' :=
  List.inj_on_of_nodup_map hnd ht ht' h

/-- With duplicate-free names, `depsOf` reads off exactly the `dependsOn`
list of a task of the job. -/
theorem depsOf_eq {jt : List JTask} (hnd : (jt.map (fun t => t.name)).Nodup)
    {t : JTask} (ht : t ∈ jt) : depsOf jt t.name = t.dependsOn := by
  unfold depsOf
  cases hf : jt.find? (fun x => x.name == t.name) with
  | none =>
    exfalso
    have h' := List.find?_eq_none.mp hf t ht
    simp at h'
  | some t' =>
    have h1 : t' ∈ jt := List.mem_of_find?_eq_some hf
    have h2 := List.find?_some hf
    have h3 : t'.name = t.name := by simpa using h2
    rw [name_mem_unique hnd h1 ht h3]

/-- With duplicate-free names, the name lookup is permutation invariant. -/
theorem find?_name_perm {jt jt' : List JTask} (hperm : List.Perm jt' jt)
    (hnd : (jt.map (fun t => t.name)).Nodup) (m : String) :
    jt'.find? (fun t => t.name == m) = jt.find? (fun t => t.name == m) := by
  cases hf : jt.find? (fun t => t.name == m) with
  | none =>
    have hall := List.find?_eq_none.mp hf
    apply List.find?_eq_none.mpr
    intro x hx
    exact hall x (hperm.mem_iff.mp hx)
  | some t =>
    have h1 : t ∈ jt := List.mem_of_find?_eq_some hf
    have h2 := List.find?_some hf
    cases hf' : jt'.find? (fun t => t.name == m) with
    | none =>
      exact absurd h2 (List.find?_eq_none.mp hf' t (hperm.mem_iff.mpr h1))
    | some t' =>
      have h1' : t' ∈ jt' := List.mem_of_find?_eq_some hf'
      have h2' := List.find?_some hf'
      have he : t' = t := by
        refine name_mem_unique hnd (hperm.mem_iff.mp h1') h1 ?_
        have e1 : t'.name = m := by simpa using h2'
        have e2 : t.name = m := by simpa using h2
        rw [e1, e2]
      rw [he]

/-- With duplicate-free names, the dependency map is permutation invariant. -/
theorem depsOf_perm {jt jt' : List JTask} (hperm : List.Perm jt' jt)
    (hnd : (jt.map (fun t => t.name)).Nodup) : ∀ m, depsOf jt' m = depsOf jt m := by
  intro m
  unfold depsOf
  rw [find?_name_perm hperm hnd m]

/-! ## Kahn loop: pop-order invariant -/

/-- Seam split for a two-element sublist of a concatenation. -/
theorem sublist_pair_append {α : Type} {l1 l2 : List α} {a b : α}
    (h : List.Sublist [a, b] (l1 ++ l2)) :
    List.Sublist [a, b] l1 ∨ List.Sublist [a, b] l2 ∨ (a ∈ l1 ∧ b ∈ l2) := by
  rcases List.sublist_append_iff.mp h with ⟨t1, t2, hsplit, hs1, hs2⟩
  cases t1 with
  | nil =>
    right; left
    have ht2 : t2 = [a, b] := hsplit.symm
    rw [ht2] at hs2
    exact hs2
  | cons x t1' =>
    cases t1' with
    | nil =>
      have h' : [a, b] = x :: t2 := hsplit
      injection h' with h1 h2
      right; right
      subst h1
      rw [← h2] at hs2
      exact ⟨hs1.subset (List.mem_singleton_self a), hs2.subset (List.mem_singleton_self b)⟩
    | cons y t1'' =>
      left
      have h' : [a, b] = x :: y :: (t1'' ++ t2) := hsplit
      injection h' with h1 h2
      injection h2 with h2a h2b
      have ht1'' : t1'' = [] := (List.append_eq_nil.mp h2b.symm).1
      subst ht1''
      rw [← h1, ← h2a] at hs1
      exact hs1

/-- Terminal case of the Kahn loop invariant: an empty queue means every
unvisited node still has an unvisited dependency, and the computed order
respects the pop order. -/
theorem kahnLoop_done (names : List String) (deps : String → List String)
    (inc : String → List String) (ord : String → Nat) (i : Nat) (P : List String)
    (hready : ∀ m ∈ names, (m ∉ P ∧ ∀ d ∈ deps m, d ∈ P) ↔ m ∈ ([] : List String))
    (hPdep : ∀ m ∈ P, ∀ d ∈ deps m, List.Sublist [d, m] P)
    (hord : ∀ a b, List.Sublist [a, b] P → ord a < ord b) :
    ∃ Pfin : List String,
      (∀ m ∈ names, m ∉ Pfin → ∃ d ∈ deps m, d ∉ Pfin)
      ∧ (∀ m ∈ Pfin, ∀ d ∈ deps m, List.Sublist [d, m] Pfin)
      ∧ (∀ a b, List.Sublist [a, b] Pfin →
          kahnLoop names inc ord i [] a < kahnLoop names inc ord i [] b) := by
  refine ⟨P, ?_, hPdep, ?_⟩
  · intro m hm hnotP
    by_contra hcon
    push_neg at hcon
    exact absurd ((hready m hm).mp ⟨hnotP, hcon⟩) (List.not_mem_nil m)
  · intro a b hab
    rw [kahnLoop_nil]
    exact hord a b hab

/-- Invariant lemma for the Kahn loop of `sortTasksByDependencies`, with the
list `P` of already popped nodes as ghost state: at the end every unvisited
node keeps an unvisited dependency, popped nodes follow their dependencies
in pop order, and the computed order map respects the pop order. -/
theorem kahnLoop_spec (names : List String) (deps : String → List String)
    (hnnd : names.Nodup) :
    ∀ (N : Nat) (inc : String → List String) (ord : String → Nat) (i : Nat)
      (queue : List String) (P : List String),
      queue.length + sumInc names inc ≤ N →
      i = P.length →
      P.Nodup →
      (∀ m ∈ P, m ∈ names) →
      queue.Nodup →
      (∀ m ∈ queue, m ∈ names ∧ m ∉ P) →
      (∀ m, inc m = (deps m).filter (fun u => !(P.contains u))) →
      (∀ m ∈ names, (m ∉ P ∧ ∀ d ∈ deps m, d ∈ P) ↔ m ∈ queue) →
      (∀ m ∈ P, ∀ d ∈ deps m, List.Sublist [d, m] P) →
      (∀ a b, List.Sublist [a, b] P → ord a < ord b) →
      (∀ m ∈ P, ord m < P.length) →
      ∃ Pfin : List String,
        (∀ m ∈ names, m ∉ Pfin → ∃ d ∈ deps m, d ∉ Pfin)
        ∧ (∀ m ∈ Pfin, ∀ d ∈ deps m, List.Sublist [d, m] Pfin)
        ∧ (∀ a b, List.Sublist [a, b] Pfin →
            kahnLoop names inc ord i queue a < kahnLoop names inc ord i queue b) := by
  intro N
  induction N with
  | zero =>
    intro inc ord i queue P hle hi hPnd hPn hqnd hqm hinc hready hPdep hord hbound
    have hq : queue = [] := List.eq_nil_of_length_eq_zero (by omega)
    subst hq
    exact kahnLoop_done names deps inc ord i P hready hPdep hord
  | succ N ih =>
    intro inc ord i queue P hle hi hPnd hPn hqnd hqm hinc hready hPdep hord hbound
    cases queue with
    | nil => exact kahnLoop_done names deps inc ord i P hready hPdep hord
    | cons n rest =>
      have hnmem : n ∈ names := (hqm n (List.mem_cons_self n rest)).1
      have hnP : n ∉ P := (hqm n (List.mem_cons_self n rest)).2
      have hndep : ∀ d ∈ deps n, d ∈ P :=
        ((hready n hnmem).mpr (List.mem_cons_self n rest)).2
      have hnrest : n ∉ rest := (List.nodup_cons.mp hqnd).1
      have hrestnd : rest.Nodup := (List.nodup_cons.mp hqnd).2
      have hrestm : ∀ m ∈ rest, m ∈ names ∧ m ∉ P :=
        fun m hm => hqm m (List.mem_cons_of_mem n hm)
      have hrestready : ∀ m ∈ rest, ∀ d ∈ deps m, d ∈ P := by
        intro m hm
        exact ((hready m (hrestm m hm).1).mpr (List.mem_cons_of_mem n hm)).2
      have hPdeps : ∀ m ∈ P, ∀ d ∈ deps m, d ∈ P := by
        intro m hm d hd
        exact (hPdep m hm d hd).subset (List.mem_cons_self d [m])
      have hincm : ∀ m u, u ∈ inc m ↔ u ∈ deps m ∧ u ∉ P := by
        intro m u
        rw [hinc m, List.mem_filter]
        simp
      have hNCmem : ∀ m, m ∈ names.filter
            (fun m => (inc m).contains n && (((inc m).filter (fun u => u != n)).isEmpty))
          ↔ (m ∈ names ∧ n ∈ deps m ∧ ∀ d ∈ deps m, d ∈ P ++ [n]) := by
        intro m
        rw [List.mem_filter, Bool.and_eq_true, List.isEmpty_iff]
        constructor
        · rintro ⟨h1, h2, h3⟩
          have hninc : n ∈ inc m := by simpa using h2
          refine ⟨h1, ((hincm m n).mp hninc).1, ?_⟩
          intro d hd
          by_cases hdP : d ∈ P
          · exact List.mem_append_left _ hdP
          · by_cases hdn : d = n
            · subst hdn
              exact List.mem_append_right _ (List.mem_singleton_self _)
            · exfalso
              have hdinc : d ∈ inc m := (hincm m d).mpr ⟨hd, hdP⟩
              have hdmem : d ∈ (inc m).filter (fun u => u != n) := by
                rw [List.mem_filter]
                exact ⟨hdinc, by simp [hdn]⟩
              rw [h3] at hdmem
              exact List.not_mem_nil d hdmem
        · rintro ⟨h1, h2, h3⟩
          refine ⟨h1, ?_, ?_⟩
          · have hninc : n ∈ inc m := (hincm m n).mpr ⟨h2, hnP⟩
            simpa using hninc
          · apply List.filter_eq_nil_iff.mpr
            intro u hu
            have hu' := (hincm m u).mp hu
            rcases List.mem_append.mp (h3 u hu'.1) with hP1 | hP1
            · exact absurd hP1 hu'.2
            · have hun : u = n := List.mem_singleton.mp hP1
              simp [hun]
      have hNCP : ∀ m ∈ names.filter
            (fun m => (inc m).contains n && (((inc m).filter (fun u => u != n)).isEmpty)),
          m ∉ P ∧ m ≠ n ∧ m ∉ rest := by
        intro m hm
        obtain ⟨h1, h2, h3⟩ := (hNCmem m).mp hm
        refine ⟨?_, ?_, ?_⟩
        · intro hmP
          exact hnP (hPdeps m hmP n h2)
        · intro hmn
          rw [hmn] at h2
          exact hnP (hndep n h2)
        · intro hmrest
          exact hnP (hrestready m hmrest n h2)
      have hNCnd : (names.filter
          (fun m => (inc m).contains n && (((inc m).filter (fun u => u != n)).isEmpty))).Nodup :=
        hnnd.filter _
      rw [kahnLoop_cons]
      refine ih (fun m => (inc m).filter (fun u => u != n))
        (fun m => if m = n then i else ord m) (i + 1)
        (sortStrings (rest ++ names.filter
          (fun m => (inc m).contains n && (((inc m).filter (fun u => u != n)).isEmpty))))
        (P ++ [n]) ?_ ?_ ?_ ?_ ?_ ?_ ?_ ?_ ?_ ?_ ?_
      · -- measure
        have hlen : (sortStrings (rest ++ names.filter
            (fun m => (inc m).contains n && (((inc m).filter (fun u => u != n)).isEmpty)))).length
            = rest.length + (names.filter
              (fun m => (inc m).contains n
                && (((inc m).filter (fun u => u != n)).isEmpty))).length := by
          rw [(sortStrings_perm _).length_eq, List.length_append]
        have hstep := sumInc_filter_step names inc n
        simp only [List.length_cons] at hle
        omega
      · -- counter
        simp [hi]
      · -- nodup of the popped list
        simp [List.nodup_append, hPnd, hnP]
      · -- popped nodes are nodes
        intro m hm
        rcases List.mem_append.mp hm with h | h
        · exact hPn m h
        · rw [List.mem_singleton.mp h]
          exact hnmem
      · -- nodup of the new queue
        have hdisj : ∀ m ∈ rest, m ∉ names.filter
            (fun m => (inc m).contains n && (((inc m).filter (fun u => u != n)).isEmpty)) :=
          fun m hm hc => (hNCP m hc).2.2 hm
        have hnd2 : (rest ++ names.filter
            (fun m => (inc m).contains n
              && (((inc m).filter (fun u => u != n)).isEmpty))).Nodup := by
          rw [List.nodup_append]
          exact ⟨hrestnd, hNCnd, fun m hm hc => hdisj m hm hc⟩
        exact ((sortStrings_perm _).nodup_iff).mpr hnd2
      · -- queue membership
        intro m hm
        have hm2 : m ∈ rest ++ names.filter
            (fun m => (inc m).contains n && (((inc m).filter (fun u => u != n)).isEmpty)) :=
          ((sortStrings_perm _).mem_iff).mp hm
        rcases List.mem_append.mp hm2 with h | h
        · have h1 := hrestm m h
          refine ⟨h1.1, ?_⟩
          intro hc
          rcases List.mem_append.mp hc with hc1 | hc1
          · exact h1.2 hc1
          · exact hnrest ((List.mem_singleton.mp hc1) ▸ h)
        · have h1 := ((hNCmem m).mp h).1
          have h2 := hNCP m h
          refine ⟨h1, ?_⟩
          intro hc
          rcases List.mem_append.mp hc with hc1 | hc1
          · exact h2.1 hc1
          · exact h2.2.1 (List.mem_singleton.mp hc1)
      · -- incoming sets relative to the popped list
        intro m
        show (inc m).filter (fun u => u != n)
          = (deps m).filter (fun u => !((P ++ [n]).contains u))
        rw [hinc m, List.filter_filter]
        apply List.filter_congr
        intro u _
        by_cases hun : u = n
        · subst hun
          simp
        · by_cases huP : u ∈ P
          · simp [hun, huP]
          · simp [hun, huP]
      · -- queue characterisation
        intro m hmn
        constructor
        · rintro ⟨hm1, hm2⟩
          have hmnotP : m ∉ P := fun hc => hm1 (List.mem_append_left _ hc)
          have hmnotn : m ≠ n := fun hc =>
            hm1 (List.mem_append_right _ (by rw [hc]; exact List.mem_singleton_self n))
          apply ((sortStrings_perm _).mem_iff).mpr
          apply List.mem_append.mpr
          by_cases hdepsP : ∀ d ∈ deps m, d ∈ P
          · left
            have hq := (hready m hmn).mp ⟨hmnotP, hdepsP⟩
            rcases List.mem_cons.mp hq with h | h
            · exact absurd h hmnotn
            · exact h
          · right
            push_neg at hdepsP
            obtain ⟨d, hd, hdnP⟩ := hdepsP
            have hdn : d = n := by
              rcases List.mem_append.mp (hm2 d hd) with h | h
              · exact absurd h hdnP
              · exact List.mem_singleton.mp h
            subst hdn
            exact (hNCmem m).mpr ⟨hmn, hd, hm2⟩
        · intro hmq
          have hm2 : m ∈ rest ++ names.filter
              (fun m => (inc m).contains n && (((inc m).filter (fun u => u != n)).isEmpty)) :=
            ((sortStrings_perm _).mem_iff).mp hmq
          rcases List.mem_append.mp hm2 with h | h
          · have h1 := hrestm m h
            have h2 := hrestready m h
            have hmn' : m ≠ n := fun hc => hnrest (hc ▸ h)
            refine ⟨?_, ?_⟩
            · intro hc
              rcases List.mem_append.mp hc with hc1 | hc1
              · exact h1.2 hc1
              · exact hmn' (List.mem_singleton.mp hc1)
            · intro d hd
              exact List.mem_append_left _ (h2 d hd)
          · have h1 := (hNCmem m).mp h
            have h2 := hNCP m h
            refine ⟨?_, h1.2.2⟩
            intro hc
            rcases List.mem_append.mp hc with hc1 | hc1
            · exact h2.1 hc1
            · exact h2.2.1 (List.mem_singleton.mp hc1)
      · -- popped nodes follow their dependencies
        intro m hm d hd
        rcases List.mem_append.mp hm with h | h
        · exact (hPdep m h d hd).trans (List.sublist_append_left _ _)
        · have hmn' : m = n := List.mem_singleton.mp h
          subst hmn'
          have hdP : d ∈ P := hndep d hd
          exact (List.singleton_sublist.mpr hdP).append (List.Sublist.refl [m])
      · -- order respects the pop order
        intro a b hab
        show (if a = n then i else ord a) < (if b = n then i else ord b)
        rcases sublist_pair_append hab with h | h | h
        · have haP : a ∈ P := h.subset (List.mem_cons_self _ _)
          have hbP : b ∈ P := h.subset (List.mem_cons_of_mem _ (List.mem_singleton_self _))
          have han : a ≠ n := fun hc => hnP (hc ▸ haP)
          have hbn : b ≠ n := fun hc => hnP (hc ▸ hbP)
          rw [if_neg han, if_neg hbn]
          exact hord a b h
        · exfalso
          have hlen := h.length_le
          simp at hlen
        · obtain ⟨haP, hb1⟩ := h
          have hbn : b = n := List.mem_singleton.mp hb1
          have han : a ≠ n := fun hc => hnP (hc ▸ haP)
          rw [if_neg han, if_pos hbn, hi]
          exact hbound a haP
      · -- order values bounded by the popped count
        intro m hm
        show (if m = n then i else ord m) < (P ++ [n]).length
        rw [List.length_append]
        rcases List.mem_append.mp hm with h | h
        · have hmn' : m ≠ n := fun hc => hnP (hc ▸ h)
          rw [if_neg hmn']
          have hb := hbound m h
          simp only [List.length_singleton]
          omega
        · rw [if_pos (List.mem_singleton.mp h), hi]
          simp only [List.length_singleton]
          omega

/-- For a job with duplicate-free task names whose dependencies stay within
the job and are acyclic (witnessed by a measure), the Kahn ordinals computed
by `sortTasksByDependencies` respect every dependency edge. -/
theorem kahnOrd_edge (jt : List JTask)
    (hnd : (jt.map (fun t => t.name)).Nodup)
    (hclosed : ∀ t ∈ jt, ∀ d ∈ t.dependsOn, d ∈ jt.map (fun t => t.name))
    (f : String → Nat) (hf : ∀ t ∈ jt, ∀ d ∈ t.dependsOn, f d < f t.name) :
    ∀ t ∈ jt, ∀ d ∈ t.dependsOn, kahnOrd jt d < kahnOrd jt t.name := by
  have hdepsOf : ∀ m ∈ jt.map (fun t => t.name), ∀ d ∈ depsOf jt m,
      d ∈ jt.map (fun t => t.name) ∧ f d < f m := by
    intro m hm d hd
    obtain ⟨t, htmem, htname⟩ := List.mem_map.mp hm
    subst htname
    rw [depsOf_eq hnd htmem] at hd
    exact ⟨hclosed t htmem d hd, hf t htmem d hd⟩
  have hqnd : (initialQueue jt).Nodup := by
    apply ((sortStrings_perm _).nodup_iff).mpr
    exact List.Nodup.sublist ((List.filter_sublist _).map _) hnd
  have hqm : ∀ m ∈ initialQueue jt,
      m ∈ jt.map (fun t => t.name) ∧ m ∉ ([] : List String) := by
    intro m hm
    refine ⟨?_, List.not_mem_nil m⟩
    have hm2 := ((sortStrings_perm _).mem_iff).mp hm
    obtain ⟨t, htm, htname⟩ := List.mem_map.mp hm2
    exact List.mem_map.mpr ⟨t, (List.mem_filter.mp htm).1, htname⟩
  have hincinit : ∀ m, depsOf jt m
      = (depsOf jt m).filter (fun u => !(([] : List String).contains u)) := by
    intro m
    simp
  have hready : ∀ m ∈ jt.map (fun t => t.name),
      (m ∉ ([] : List String) ∧ ∀ d ∈ depsOf jt m, d ∈ ([] : List String))
        ↔ m ∈ initialQueue jt := by
    intro m hmn
    obtain ⟨t, htmem, htname⟩ := List.mem_map.mp hmn
    subst htname
    rw [depsOf_eq hnd htmem]
    constructor
    · rintro ⟨-, hdeps⟩
      apply ((sortStrings_perm _).mem_iff).mpr
      apply List.mem_map.mpr
      refine ⟨t, ?_, rfl⟩
      apply List.mem_filter.mpr
      refine ⟨htmem, ?_⟩
      rw [List.isEmpty_iff]
      exact List.eq_nil_iff_forall_not_mem.mpr
        (fun a ha => List.not_mem_nil a (hdeps a ha))
    · intro hq
      have hm2 := ((sortStrings_perm _).mem_iff).mp hq
      obtain ⟨t', ht'm, ht'name⟩ := List.mem_map.mp hm2
      have ht'f := List.mem_filter.mp ht'm
      have ht'e : t' = t := name_mem_unique hnd ht'f.1 htmem ht'name
      have hemp : t.dependsOn = [] := by
        have h2 := ht'f.2
        rw [ht'e] at h2
        rwa [List.isEmpty_iff] at h2
      refine ⟨List.not_mem_nil _, ?_⟩
      intro d hd
      rw [hemp] at hd
      exact hd
  have hordinit : ∀ a b : String, List.Sublist [a, b] ([] : List String)
      → (fun _ : String => 0) a < (fun _ : String => 0) b := by
    intro a b hab
    exfalso
    have h2 := hab.length_le
    simp at h2
  obtain ⟨Pfin, hend, hG8, hG9⟩ :=
    kahnLoop_spec (jt.map (fun t => t.name)) (depsOf jt) hnd
      ((initialQueue jt).length + sumInc (jt.map (fun t => t.name)) (depsOf jt))
      (depsOf jt) (fun _ => 0) 0 (initialQueue jt) []
      (Nat.le_refl _) rfl List.nodup_nil (fun m hm => absurd hm (List.not_mem_nil m))
      hqnd hqm hincinit hready (fun m hm => absurd hm (List.not_mem_nil m))
      hordinit (fun m hm => absurd hm (List.not_mem_nil m))
  have hcomp : ∀ v : Nat, ∀ m ∈ jt.map (fun t => t.name), f m < v → m ∈ Pfin := by
    intro v
    induction v with
    | zero =>
      intro m hm hv
      exact absurd hv (Nat.not_lt_zero _)
    | succ v ihv =>
      intro m hm hv
      by_contra hnot
      obtain ⟨d, hd, hdnot⟩ := hend m hm hnot
      have h2 := hdepsOf m hm d hd
      exact hdnot (ihv d h2.1 (by omega))
  intro t ht d hd
  have hmn : t.name ∈ jt.map (fun t => t.name) := List.mem_map.mpr ⟨t, ht, rfl⟩
  have hdd : d ∈ depsOf jt t.name := by
    rw [depsOf_eq hnd ht]
    exact hd
  have htP : t.name ∈ Pfin := hcomp (f t.name + 1) t.name hmn (Nat.lt_succ_self _)
  have hsub := hG8 t.name htP d hdd
  exact hG9 d t.name hsub

/-- With duplicate-free task names, `sortTasksByDependencies` is a function
of the task multiset: the tie-broken order makes the sorted permutation
unique, and the Kahn ordinals are permutation invariant. -/
theorem sortTasksByDependencies_perm_eq {jt jt' : List JTask} (hperm : List.Perm jt' jt)
    (hnd : (jt.map (fun t => t.name)).Nodup) :
    sortTasksByDependencies jt' = sortTasksByDependencies jt := by
  have hdepsfun : depsOf jt' = depsOf jt := funext (depsOf_perm hperm hnd)
  have hnamesperm : List.Perm (jt'.map (fun t => t.name)) (jt.map (fun t => t.name)) :=
    hperm.map _
  have hiq : initialQueue jt' = initialQueue jt := by
    unfold initialQueue
    apply sortStrings_eq_of_perm
    exact (hperm.filter _).map _
  have hord : kahnOrd jt' = kahnOrd jt := by
    unfold kahnOrd
    rw [hdepsfun, hiq]
    exact kahnLoop_perm
      ((initialQueue jt).length + sumInc (jt'.map (fun t => t.name)) (depsOf jt))
      _ _ _ _ _ _ hnamesperm (Nat.le_refl _)
  unfold sortTasksByDependencies
  rw [hord]
  apply sorted_eq_of_perm_mem
  · exact (List.perm_insertionSort _ _).trans (hperm.trans (List.perm_insertionSort _ _).symm)
  · exact List.sorted_insertionSort _ _
  · exact List.sorted_insertionSort _ _
  · intro a ha b hb hab hba
    have ha' : a ∈ jt := hperm.mem_iff.mp ((List.perm_insertionSort _ _).mem_iff.mp ha)
    have hb' : b ∈ jt := hperm.mem_iff.mp ((List.perm_insertionSort _ _).mem_iff.mp hb)
    have hname : a.name = b.name := by
      unfold taskLE at hab hba
      rcases hab with h1 | ⟨h1, h1'⟩
      · rcases hba with h2 | ⟨h2, h2'⟩
        · omega
        · omega
      · rcases hba with h2 | ⟨h2, h2'⟩
        · omega
        · exact strLE_antisymm _ _ h1' h2'
    exact name_mem_unique hnd ha' hb' hname

/-! # Claim theorems -/

/-- C9 counterexample: with the output store constructed by `run` on data
directory `data`, the writer path of job `job1`, task `build`, stream
`stdout` is not `data/logs/job1/build-stdout.log` as the claim states, but
`data/logs/logs/job1/build-stdout.log`: the store prefixes its base path
(already `data/logs`) with another `logs` segment. -/
theorem outputStore_path_counterexample :
    OutputStore.writerPath (runOutputStoreBasePath "data") "job1" "build" "stdout"
      ≠ "data/logs/job1/build-stdout.log"
    ∧ OutputStore.writerPath (runOutputStoreBasePath "data") "job1" "build" "stdout"
      = "data/logs/logs/job1/build-stdout.log" := by
  constructor
  · decide
  · decide

/-- C9 (amended): for every jobID, taskName and stream, `OutputStore.Writer`
creates and `OutputStore.Reader` opens the log file at
`<dataDir>/logs/logs/<jobID>/<taskName>-<stream>.log` — the store joins its
base path (already `<dataDir>/logs` as constructed by `run`) with a further
`logs` segment — and the writer and reader paths agree. -/
theorem outputStore_path_amended (dataDir jobID taskName outputName : String)
    (hd : dataDir ≠ "") (hj : jobID ≠ "") :
    OutputStore.writerPath (runOutputStoreBasePath dataDir) jobID taskName outputName
      = dataDir ++ "/" ++ "logs" ++ "/" ++ "logs" ++ "/" ++ jobID ++ "/" ++
        (taskName ++ "-" ++ outputName ++ ".log")
    ∧ OutputStore.readerPath (runOutputStoreBasePath dataDir) jobID taskName outputName
      = OutputStore.writerPath (runOutputStoreBasePath dataDir) jobID taskName outputName := by
  refine ⟨?_, rfl⟩
  have e1 : pathJoin dataDir "logs" = dataDir ++ "/" ++ "logs" :=
    pathJoin_ne_empty _ _ hd (by decide)
  have e2 : pathJoin (dataDir ++ "/" ++ "logs") "logs"
      = dataDir ++ "/" ++ "logs" ++ "/" ++ "logs" :=
    pathJoin_ne_empty _ _ (append_ne_empty_right _ _ (by decide)) (by decide)
  have e3 : pathJoin (dataDir ++ "/" ++ "logs" ++ "/" ++ "logs") jobID
      = dataDir ++ "/" ++ "logs" ++ "/" ++ "logs" ++ "/" ++ jobID :=
    pathJoin_ne_empty _ _ (append_ne_empty_right _ _ (by decide)) hj
  have e4 : pathJoin (dataDir ++ "/" ++ "logs" ++ "/" ++ "logs" ++ "/" ++ jobID)
      (taskName ++ "-" ++ outputName ++ ".log")
      = dataDir ++ "/" ++ "logs" ++ "/" ++ "logs" ++ "/" ++ jobID ++ "/" ++
        (taskName ++ "-" ++ outputName ++ ".log") :=
    pathJoin_ne_empty _ _ (append_ne_empty_right _ _ hj)
      (append_ne_empty_right _ _ (by decide))
  show OutputStore.buildPath (pathJoin dataDir "logs") jobID taskName outputName = _
  unfold OutputStore.buildPath
  rw [e1, e2, e3, e4]

/-- C9 witness: the amended path equation evaluated at data directory
`data`, job `job1`, task `build`, stream `stdout`. -/
theorem outputStore_path_amended_witness :
    ("data" : String) ≠ "" ∧ ("job1" : String) ≠ ""
    ∧ OutputStore.writerPath (runOutputStoreBasePath "data") "job1" "build" "stdout"
      = "data" ++ "/" ++ "logs" ++ "/" ++ "logs" ++ "/" ++ "job1" ++ "/" ++
        ("build" ++ "-" ++ "stdout" ++ ".log") :=
  ⟨by decide, by decide,
    (outputStore_path_amended "data" "job1" "build" "stdout" (by decide) (by decide)).1⟩

/-- C8 counterexample: a task with `allow_failure=true` whose single command
exits with status 2. Contrary to scenario S5's expectation (errored=true
with the non-zero exit recorded), after `Run` the task has `errored=false`
and `exitCode=0` (the deferred reset in `Run` clears the transiently
recorded status), and `Run` reports no error. -/
theorem taskRunner_allowFailure_counterexample :
    (runTask 0 (sampleExecTask true) [CmdOutcome.exitStatus 2 "exit status 2"]).1.errored = false
    ∧ (runTask 0 (sampleExecTask true) [CmdOutcome.exitStatus 2 "exit status 2"]).1.exitCode = 0
    ∧ (runTask 0 (sampleExecTask true) [CmdOutcome.exitStatus 2 "exit status 2"]).2 = none := by
  decide

/-- C8 (amended): when a task command exits with a non-zero status: if
`AllowFailure` is false, the executor sets `errored=true`, records the exit
status in `exitCode`, stores the error on the task, and the error is
returned by `Run` (and, handed to `jobCompleted` as the scheduler result,
becomes the job's `lastError`). If `AllowFailure` is true, the remaining
commands still run after the exit status is recorded, and the job does not
fail — but after `Run` returns the task has `errored=false` and
`exitCode=0`: the non-zero exit status is recorded only transiently and is
cleared by `Run`'s deferred reset, so it is not observable after `Run`
(contrary to scenario S5's expectation). -/
theorem taskRunner_exit_status_spec (now : Nat) (t : ExecTask) (code : Int) (msg : String)
    (rest cmds : List CmdOutcome) :
    (t.allowFailure = false →
      runTask now t (CmdOutcome.exitStatus code msg :: rest)
        = ({ t with
             startedAt := some now
             exitCode := toInt16 code
             errored := true
             error := some msg
             endedAt := some now }, some msg))
    ∧ (∀ (defs : Defs) (s : RunnerState) (id : Nat) (j : PipelineJob),
        s.jobs id = some j → id ∉ s.waitListByPipeline j.pipeline →
        ∃ j', (jobCompleted defs s id (some msg)).jobs id = some j'
          ∧ j'.lastError = some msg ∧ j'.completed = true)
    ∧ (t.allowFailure = true →
      execute now t (CmdOutcome.exitStatus code msg :: rest)
        = executeLoop now { t with startedAt := some now, exitCode := toInt16 code } rest)
    ∧ (t.allowFailure = true → t.errored = false → t.skipped = false →
      (∀ m, CmdOutcome.execFailure m ∉ cmds) →
      (runTask now t cmds).2 = none ∧ (runTask now t cmds).1.errored = false
        ∧ (runTask now t cmds).1.exitCode = 0) := by
  refine ⟨?_, ?_, ?_, ?_⟩
  · intro ha
    simp [runTask, execute, executeLoop, ha, runDeferredReset]
  · intro defs s id j hj hwl
    refine ⟨{ j with completed := true, endTime := some s.now, lastError := some msg }, ?_, rfl, rfl⟩
    unfold jobCompleted
    rw [hj]
    simp only [requestPersist]
    show (startJobsOnWaitList defs _ j.pipeline).jobs id = _
    unfold startJobsOnWaitList
    rw [drainLoop_jobs_not_mem defs j.pipeline _ _ id hwl]
    simp
  · intro ha
    simp [execute, executeLoop, ha]
  · intro ha he hs hf
    obtain ⟨h1, h2, h3⟩ := executeLoop_no_failure now cmds { t with startedAt := some now } ha he hf
    have h3' : (executeLoop now { t with startedAt := some now } cmds).1.skipped = false := by
      rw [h3]
      exact hs
    have hcond : (!(executeLoop now { t with startedAt := some now } cmds).1.errored
        && !(executeLoop now { t with startedAt := some now } cmds).1.skipped) = true := by
      rw [h2, h3']
      rfl
    refine ⟨h1, ?_, ?_⟩
    · show (runDeferredReset (executeLoop now { t with startedAt := some now } cmds).1).errored
        = false
      unfold runDeferredReset
      rw [if_pos hcond]
      exact h2
    · show (runDeferredReset (executeLoop now { t with startedAt := some now } cmds).1).exitCode
        = 0
      unfold runDeferredReset
      rw [if_pos hcond]

/-- C8 witness: the failing-task branch evaluated concretely — a task with
`allow_failure=false` whose command exits with status 2 comes back from
`Run` errored, with the status and message recorded and the error
returned. -/
theorem taskRunner_exit_status_spec_witness :
    (sampleExecTask false).allowFailure = false
    ∧ runTask 0 (sampleExecTask false) [CmdOutcome.exitStatus 2 "exit status 2"]
        = ({ sampleExecTask false with
             startedAt := some 0
             exitCode := toInt16 2
             errored := true
             error := some "exit status 2"
             endedAt := some 0 }, some "exit status 2") :=
  ⟨rfl, (taskRunner_exit_status_spec 0 (sampleExecTask false) 2 "exit status 2" [] []).1 rfl⟩

/-- C5: during `initialLoadFromStore`, a persisted job whose reloaded state
is running is forced terminal — its `canceled` flag is set, every task with
status `waiting` or `running` is rewritten to `canceled`, every other task
and every other job field is kept — and a job that does not reload as
running is reconstructed unchanged. -/
theorem initialLoad_forces_running_terminal (pj : PersistedJob) :
    ((buildJobFromPersistedJob pj).isRunning = true →
      (loadPersistedJob pj).canceled = true
      ∧ (loadPersistedJob pj).completed = pj.completed
      ∧ (loadPersistedJob pj).id = pj.id
      ∧ (loadPersistedJob pj).pipeline = pj.pipeline
      ∧ (loadPersistedJob pj).created = pj.created
      ∧ (loadPersistedJob pj).start = pj.start
      ∧ (loadPersistedJob pj).endTime = pj.endTime
      ∧ (loadPersistedJob pj).user = pj.user
      ∧ (loadPersistedJob pj).tasks
          = (buildJobFromPersistedJob pj).tasks.map cancelPendingTask
      ∧ (∀ t : JTask,
          ((t.status = "waiting" ∨ t.status = "running") →
            cancelPendingTask t = { t with status := "canceled" })
          ∧ (¬(t.status = "waiting" ∨ t.status = "running") →
            cancelPendingTask t = t)))
    ∧ ((buildJobFromPersistedJob pj).isRunning = false →
      loadPersistedJob pj = buildJobFromPersistedJob pj) := by
  constructor
  · intro hrun
    unfold loadPersistedJob
    rw [if_pos hrun]
    refine ⟨rfl, rfl, rfl, rfl, rfl, rfl, rfl, rfl, rfl, ?_⟩
    intro t
    constructor
    · intro ht
      unfold cancelPendingTask
      rw [if_pos ht]
    · intro ht
      unfold cancelPendingTask
      rw [if_neg ht]
  · intro hrun
    unfold loadPersistedJob
    rw [if_neg (by simp [hrun])]

/-- C5 witness: the forced-terminal branch evaluated on a concrete crashed
job with one `done` and one `running` task — the reloaded job is canceled
and the `running` task is rewritten to `canceled`. -/
theorem initialLoad_forces_running_terminal_witness :
    (buildJobFromPersistedJob sampleRunningPJ).isRunning = true
    ∧ (loadPersistedJob sampleRunningPJ).canceled = true :=
  ⟨by decide, ((initialLoad_forces_running_terminal sampleRunningPJ).1 (by decide)).1⟩

/-- C7 counterexample: the persistence round trip is not the identity on a
job carrying a `lastError` (persisted jobs have no such field, it reloads as
nil) or a task error with empty message (`strPtrToErr` maps it to nil). -/
theorem persist_roundTrip_counterexample :
    buildJobFromPersistedJob (persistJob sampleLossyJob) ≠ sampleLossyJob
    ∧ (buildJobFromPersistedJob (persistJob sampleLossyJob)).lastError = none
    ∧ sampleLossyJob.lastError = some "boom"
    ∧ ((buildJobFromPersistedJob (persistJob sampleLossyJob)).tasks.map (fun t => t.error))
        = [none]
    ∧ (sampleLossyJob.tasks.map (fun t => t.error)) = [some ""] := by
  refine ⟨by decide, by decide, by decide, by decide, by decide⟩

/-- C7 (amended): projecting an in-memory job to a `persistedJob` (as in
`saveToStore`) and rebuilding it with `buildJobFromPersistedJob` restores
every job field except `lastError`, which is not persisted and reloads as
nil, and every task field, with task `Error` values represented by their
message strings — provided no task error has an empty message (an empty
message reloads as nil). -/
theorem persist_task_roundTrip (t : JTask) (h : t.error ≠ some "") :
    persistedTaskToJobTask (persistTask t) = t := by
  cases t with
  | mk name script dependsOn allowFailure status start endTime skipped exitCode errored error =>
    unfold persistedTaskToJobTask persistTask errToStrPtr strPtrToErr
    cases error with
    | none => rfl
    | some s =>
      have hs : ¬ s = "" := fun hse => h (by simp [hse])
      simp [hs]

theorem persist_tasks_roundTrip : ∀ (l : List JTask), (∀ t ∈ l, t.error ≠ some "") →
    (l.map persistTask).map persistedTaskToJobTask = l := by
  intro l
  induction l with
  | nil => intro _; rfl
  | cons t ts ih =>
    intro h
    rw [List.map_cons, List.map_cons,
        persist_task_roundTrip t (h t (List.mem_cons_self _ _)),
        ih (fun u hu => h u (List.mem_cons_of_mem _ hu))]

theorem persist_roundTrip_modulo_lastError (j : PipelineJob)
    (htask : ∀ t ∈ j.tasks, t.error ≠ some "") :
    buildJobFromPersistedJob (persistJob j) = { j with lastError := none } := by
  have htasks := persist_tasks_roundTrip j.tasks htask
  cases j with
  | mk id pipeline completed canceled created start endTime user tasks lastError =>
    show ({ id := id, pipeline := pipeline, completed := completed, canceled := canceled,
            created := created, start := start, endTime := endTime, user := user,
            tasks := (tasks.map persistTask).map persistedTaskToJobTask,
            lastError := none } : PipelineJob) = _
    rw [htasks]

/-- C7 witness: the amended round trip evaluated on a concrete job with a
non-empty task error message and a `lastError` — everything except
`lastError` survives. -/
theorem persist_roundTrip_modulo_lastError_witness :
    (∀ t ∈ ({ sampleLossyJob with
        tasks := [], lastError := some "boom" } : PipelineJob).tasks, t.error ≠ some "")
    ∧ buildJobFromPersistedJob (persistJob { sampleLossyJob with
        tasks := [], lastError := some "boom" })
      = { sampleLossyJob with tasks := [], lastError := none } :=
  ⟨(by intro t ht; cases ht),
   persist_roundTrip_modulo_lastError _ (by intro t ht; cases ht)⟩

/-- C2: concurrency bound — in every runner state reachable by critical
sections (`ScheduleAsync`, `jobCompleted` with its wait-list drain,
`startJobsOnWaitList`, with `startJob` occurring inside them as in the
code), the number of running jobs of every pipeline is at most the
pipeline's concurrency. -/
theorem runner_concurrency_bound (defs : Defs) (s : RunnerState) (h : Reachable defs s)
    (p : String) :
    runningJobsCount s p ≤ (pipelineDefOf defs p).concurrency :=
  (reachable_inv defs h).2.2.2.2 p

/-- C2 witness: the bound evaluated on the concrete reachable state with one
running job on pipeline `r` (concurrency 1). -/
theorem runner_concurrency_bound_witness :
    Reachable sampleDefs sampleR1
    ∧ runningJobsCount sampleR1 "r" ≤ (pipelineDefOf sampleDefs "r").concurrency := by
  have hre : Reachable sampleDefs sampleR1 :=
    Reachable.step Reachable.init (Step.schedule initialState "r" "u1")
  exact ⟨hre, runner_concurrency_bound sampleDefs sampleR1 hre "r"⟩

/-- C3: replace semantics — in a reachable state where `ScheduleAsync`
resolves the `Replace` action, the wait list is a singleton holding the
previously pending tail job; after the call the newly admitted job is the
unique job on the wait list, and the replaced job is canceled in place with
`completed=false` and `start=nil`, still registered in `jobsByID` and
`jobsByPipeline`. -/
theorem scheduleAsync_replace_semantics (defs : Defs) (s : RunnerState)
    (h : Reachable defs s) (p u : String)
    (hact : resolveScheduleAction defs s p = ScheduleAction.replace) :
    ∃ prevId jprev,
      s.waitListByPipeline p = [prevId]
      ∧ s.jobs prevId = some jprev
      ∧ jprev.completed = false ∧ jprev.start = none ∧ jprev.canceled = false
      ∧ (ScheduleAsync defs s p u).2 = .ok s.nextId
      ∧ (ScheduleAsync defs s p u).1.waitListByPipeline p = [s.nextId]
      ∧ (ScheduleAsync defs s p u).1.jobs prevId = some { jprev with canceled := true }
      ∧ ({ jprev with canceled := true }).canceled = true
      ∧ ({ jprev with canceled := true }).completed = false
      ∧ ({ jprev with canceled := true }).start = none
      ∧ prevId ∈ (ScheduleAsync defs s p u).1.jobsByPipeline p := by
  obtain ⟨h1, h2, h3, h4, h5⟩ := reachable_inv defs h
  obtain ⟨hge, hql, hrep, hwlne⟩ := (resolve_replace_iff defs s p).mp hact
  have hdpex : ∃ pd, defs p = some pd := by
    cases hdp' : defs p with
    | some pd => exact ⟨pd, rfl⟩
    | none =>
      exfalso
      unfold pipelineDefOf at hrep
      rw [hdp'] at hrep
      simp [zeroPipelineDef] at hrep
  obtain ⟨pd, hdp⟩ := hdpex
  have hlen1 : (s.waitListByPipeline p).length = 1 := by
    have hb := h4 p hrep
    have hpos := List.length_pos.mpr hwlne
    omega
  obtain ⟨prev, hwl⟩ := List.length_eq_one.mp hlen1
  have hprevmem : prev ∈ s.waitListByPipeline p := by
    rw [hwl]
    exact List.mem_singleton_self _
  obtain ⟨jprev, ha, hb, hc, hd, he, hf⟩ := (h3 p).2 prev hprevmem
  have hlt : prev < s.nextId := (h1 prev jprev ha).1
  have heq := scheduleAsync_replace_eq defs s p u pd prev jprev hdp hact hwl ha hlt
  refine ⟨prev, jprev, hwl, ha, hd, hc, he, ?_, ?_, ?_, rfl, hd, hc, ?_⟩
  · rw [heq]
  · rw [heq]
    show (if p = p then _ else _) = _
    rw [if_pos rfl]
  · rw [heq]
    show (if prev = prev then _ else _) = _
    rw [if_pos rfl]
  · rw [heq]
    show prev ∈ (registerJob s (newJob s p u pd)).jobsByPipeline p
    have hbpp : (registerJob s (newJob s p u pd)).jobsByPipeline p
        = s.jobsByPipeline p ++ [s.nextId] := registerJob_bp_self s (newJob s p u pd)
    rw [hbpp]
    exact List.mem_append_left _ hf

/-- C3 witness: the replace semantics evaluated on the concrete reachable
state with one running and one queued job on the replace-strategy pipeline
`r`. -/
theorem scheduleAsync_replace_semantics_witness :
    Reachable sampleDefs sampleR2
    ∧ resolveScheduleAction sampleDefs sampleR2 "r" = ScheduleAction.replace
    ∧ ∃ prevId jprev,
        sampleR2.waitListByPipeline "r" = [prevId]
        ∧ sampleR2.jobs prevId = some jprev
        ∧ jprev.completed = false ∧ jprev.start = none ∧ jprev.canceled = false
        ∧ (ScheduleAsync sampleDefs sampleR2 "r" "u3").2 = .ok sampleR2.nextId
        ∧ (ScheduleAsync sampleDefs sampleR2 "r" "u3").1.waitListByPipeline "r"
            = [sampleR2.nextId]
        ∧ (ScheduleAsync sampleDefs sampleR2 "r" "u3").1.jobs prevId
            = some { jprev with canceled := true }
        ∧ ({ jprev with canceled := true }).canceled = true
        ∧ ({ jprev with canceled := true }).completed = false
        ∧ ({ jprev with canceled := true }).start = none
        ∧ prevId ∈ (ScheduleAsync sampleDefs sampleR2 "r" "u3").1.jobsByPipeline "r" := by
  have hre : Reachable sampleDefs sampleR2 :=
    Reachable.step (Reachable.step Reachable.init (Step.schedule initialState "r" "u1"))
      (Step.schedule sampleR1 "r" "u2")
  have hact : resolveScheduleAction sampleDefs sampleR2 "r" = ScheduleAction.replace := by
    decide
  exact ⟨hre, hact, scheduleAsync_replace_semantics sampleDefs sampleR2 hre "r" "u3" hact⟩

/-- C1: `ScheduleAsync` fails with the unknown-pipeline error when the
pipeline is undefined; otherwise the admission action it acts on is exactly
the spec's rule over R (running count), W (wait-list length), C
(concurrency), QL (optional queue limit) and the queue strategy, and the
`QueueDisabled` / `QueueFull` errors are returned exactly for the
`RejectNoQueue` / `RejectFull` actions. -/
theorem scheduleAsync_admission_rule (defs : Defs) (s : RunnerState) (p u : String) :
    (defs p = none → ScheduleAsync defs s p u = (s, .error .unknownPipeline))
    ∧ (∀ pd : PipelineDef, defs p = some pd →
        resolveScheduleAction defs s p
          = specAdmissionRule (runningJobsCount s p) (s.waitListByPipeline p).length
              pd.concurrency pd.queueLimit pd.queueStrategy
        ∧ ((ScheduleAsync defs s p u).2 = .error .queueDisabled
            ↔ resolveScheduleAction defs s p = .noQueue)
        ∧ ((ScheduleAsync defs s p u).2 = .error .queueFull
            ↔ resolveScheduleAction defs s p = .queueFull)) := by
  constructor
  · intro h
    unfold ScheduleAsync
    rw [h]
  · intro pd hpd
    refine ⟨?_, ?_, ?_⟩
    · unfold resolveScheduleAction specAdmissionRule pipelineDefOf
      rw [hpd]
      simp only [Option.getD_some]
      rcases Nat.lt_or_ge (runningJobsCount s p) pd.concurrency with hrc | hrc
      · rw [if_neg (by omega : ¬ runningJobsCount s p ≥ pd.concurrency), if_pos hrc]
      · rw [if_pos hrc, if_neg (by omega : ¬ runningJobsCount s p < pd.concurrency)]
        by_cases hql0 : pd.queueLimit = some 0
        · rw [if_pos hql0, if_pos hql0]
        · rw [if_neg hql0, if_neg hql0]
          by_cases hrep : pd.queueStrategy = QueueStrategy.replace ∧ s.waitListByPipeline p ≠ []
          · rw [if_pos hrep,
              if_pos ⟨hrep.1, List.length_pos.mpr hrep.2⟩]
          · rw [if_neg hrep,
              if_neg (fun hc => hrep ⟨hc.1, List.length_pos.mp hc.2⟩)]
    · unfold ScheduleAsync
      rw [hpd]
      cases hact : resolveScheduleAction defs s p <;> simp [hact]
    · unfold ScheduleAsync
      rw [hpd]
      cases hact : resolveScheduleAction defs s p <;> simp [hact]

/-- C1 witness: the admission equality and the error mapping evaluated on
the fixture where pipeline `z` (queue limit 0, one running job) rejects with
`QueueDisabled`, and on pipeline `p`. -/
theorem scheduleAsync_admission_rule_witness :
    sampleDefs "nope" = none
    ∧ ScheduleAsync sampleDefs initialState "nope" "u"
        = (initialState, .error .unknownPipeline)
    ∧ (∃ pd : PipelineDef, sampleDefs "p" = some pd
        ∧ resolveScheduleAction sampleDefs initialState "p"
          = specAdmissionRule (runningJobsCount initialState "p")
              (initialState.waitListByPipeline "p").length
              pd.concurrency pd.queueLimit pd.queueStrategy) := by
  refine ⟨by decide, (scheduleAsync_admission_rule sampleDefs initialState "nope" "u").1 (by decide),
    ?_⟩
  obtain ⟨pd, hpd⟩ : ∃ pd, sampleDefs "p" = some pd := ⟨_, rfl⟩
  exact ⟨pd, hpd, ((scheduleAsync_admission_rule sampleDefs initialState "p" "u").2 pd hpd).1⟩

/-- C10 (implicit): whenever `ScheduleAsync` returns an error (undefined
pipeline, queue disabled or queue full), the runner state is returned
unchanged — in particular `jobsByID`, `jobsByPipeline` and
`waitListByPipeline` are identical and no persistence request is made. -/
theorem scheduleAsync_rejection_atomic (defs : Defs) (s : RunnerState) (p u : String)
    (e : ScheduleError) (h : (ScheduleAsync defs s p u).2 = .error e) :
    (ScheduleAsync defs s p u).1 = s
    ∧ (ScheduleAsync defs s p u).1.jobs = s.jobs
    ∧ (ScheduleAsync defs s p u).1.jobsByPipeline = s.jobsByPipeline
    ∧ (ScheduleAsync defs s p u).1.waitListByPipeline = s.waitListByPipeline
    ∧ (ScheduleAsync defs s p u).1.persistQueued = s.persistQueued := by
  have key : (ScheduleAsync defs s p u).1 = s := by
    unfold ScheduleAsync at h ⊢
    cases hdp : defs p with
    | none => rfl
    | some pd =>
      simp only [hdp] at h ⊢
      cases hact : resolveScheduleAction defs s p <;> simp only [hact] at h ⊢ <;>
        first
          | rfl
          | exact absurd h (by simp)
  exact ⟨key, by rw [key], by rw [key], by rw [key], by rw [key]⟩

/-- C10 witness: a rejection (queue disabled on pipeline `z` with a running
job) evaluated concretely leaves the state unchanged. -/
theorem scheduleAsync_rejection_atomic_witness :
    (ScheduleAsync sampleDefs (ScheduleAsync sampleDefs initialState "z" "u").1 "z" "u").2
      = .error .queueDisabled
    ∧ (ScheduleAsync sampleDefs (ScheduleAsync sampleDefs initialState "z" "u").1 "z" "u").1
      = (ScheduleAsync sampleDefs initialState "z" "u").1 :=
  ⟨rfl,
   (scheduleAsync_rejection_atomic sampleDefs (ScheduleAsync sampleDefs initialState "z" "u").1
     "z" "u" .queueDisabled rfl).1⟩

/-- C4: FIFO drain. First, if jobs `a` and `b` sit on the wait list of an
append-strategy pipeline of a reachable state with `a` admitted first, then
in every later reachable state `a` is started whenever `b` is (so `a` starts
first). Second, `startJobsOnWaitList` removes and starts exactly a prefix
of the wait list — head first — leaving the remainder in its original
relative order, and stops only when the list is exhausted or the admission
rule no longer yields `Start`. -/
theorem waitList_fifo_drain (defs : Defs) :
    (∀ s, Reachable defs s →
      ∀ p, (pipelineDefOf defs p).queueStrategy = QueueStrategy.append →
        ∀ a b, beforeOn (s.waitListByPipeline p) a b →
          ∀ s', ReachableFrom defs s s' →
            jobStarted s' b = true → jobStarted s' a = true)
    ∧ (∀ s, Reachable defs s → ∀ p,
        ∃ k, k ≤ (s.waitListByPipeline p).length
          ∧ (startJobsOnWaitList defs s p).waitListByPipeline p
              = (s.waitListByPipeline p).drop k
          ∧ (∀ id ∈ (s.waitListByPipeline p).take k,
              jobStarted (startJobsOnWaitList defs s p) id = true)
          ∧ (k = (s.waitListByPipeline p).length
             ∨ resolveScheduleAction defs (startJobsOnWaitList defs s p) p
                 ≠ ScheduleAction.start)) := by
  constructor
  · intro s hre p _hstrat a b hbef s' hf hstartb
    obtain ⟨h1, h2, h3, h4, h5⟩ := reachable_inv defs hre
    have hbmem : b ∈ s.waitListByPipeline p := beforeOn_mem_right hbef
    obtain ⟨jb, hjb, hjbp, hjbs, hjbc, hjbx, hjbm⟩ := (h3 p).2 b hbmem
    have hblt : b < s.nextId := (h1 b jb hjb).1
    have hbn : jobStarted s b = false := by
      simp [jobStarted, hjb, hjbs]
    have hfi0 : FifoInv s p a b := by
      refine Or.inr ⟨hbn, ?_⟩
      intro q hq
      obtain ⟨jb', hjb', hjb'q, _⟩ := (h3 q).2 b hq
      rw [hjb] at hjb'
      injection hjb' with he
      subst he
      exact ⟨hjb'q.symm.trans hjbp, hbef⟩
    have hlater := fifoInv_reachableFrom defs hre hf p a b hblt hfi0
    cases hlater.1 with
    | inl h => exact h
    | inr h =>
      rw [h.1] at hstartb
      cases hstartb
  · intro s hre p
    obtain ⟨h1, h2, h3, h4, h5⟩ := reachable_inv defs hre
    obtain ⟨k, hk, hwlp, _, _, hstarted, _, _, _, _, _, _, hstop⟩ :=
      drainLoop_spec defs p (s.waitListByPipeline p) s h1 h2 h5 (h3 p).1 ((h3 p).2)
    exact ⟨k, hk, hwlp, hstarted, hstop⟩

/-- C4 witness: on the append pipeline `p` with concurrency 1, after three
schedules the wait list is `[1, 2]`; completing job 0 and then job 1 starts
job 2, and the theorem yields that job 1 is started there as well; the drain
clause is instantiated at the same reachable state. -/
theorem waitList_fifo_drain_witness :
    ((pipelineDefOf sampleDefs "p").queueStrategy = QueueStrategy.append
      ∧ beforeOn (sampleP3.waitListByPipeline "p") 1 2
      ∧ jobStarted sampleP5 2 = true
      ∧ jobStarted sampleP5 1 = true)
    ∧ (∃ k, k ≤ (sampleP3.waitListByPipeline "p").length
        ∧ (startJobsOnWaitList sampleDefs sampleP3 "p").waitListByPipeline "p"
            = (sampleP3.waitListByPipeline "p").drop k
        ∧ (∀ id ∈ (sampleP3.waitListByPipeline "p").take k,
            jobStarted (startJobsOnWaitList sampleDefs sampleP3 "p") id = true)
        ∧ (k = (sampleP3.waitListByPipeline "p").length
           ∨ resolveScheduleAction sampleDefs (startJobsOnWaitList sampleDefs sampleP3 "p") "p"
               ≠ ScheduleAction.start)) := by
  have hre : Reachable sampleDefs sampleP3 :=
    Reachable.step (Reachable.step (Reachable.step Reachable.init
      (Step.schedule initialState "p" "v1")) (Step.schedule sampleP1 "p" "v2"))
      (Step.schedule sampleP2 "p" "v3")
  have hstrat : (pipelineDefOf sampleDefs "p").queueStrategy = QueueStrategy.append := by
    decide
  have hE : sampleP3.waitListByPipeline "p" = [1, 2] := by decide
  have hbef : beforeOn (sampleP3.waitListByPipeline "p") 1 2 := by
    unfold beforeOn
    rw [hE]
  have hf : ReachableFrom sampleDefs sampleP3 sampleP5 :=
    ReachableFrom.step (ReachableFrom.step ReachableFrom.refl
        (Step.complete sampleP3 0 none samplePJob0 rfl (by decide) (by decide)))
      (Step.complete sampleP4 1 none samplePJob1 rfl (by decide) (by decide))
  have hb2 : jobStarted sampleP5 2 = true := by
    decide
  refine ⟨⟨hstrat, hbef, hb2, ?_⟩, ?_⟩
  · exact (waitList_fifo_drain sampleDefs).1 sampleP3 hre "p" hstrat 1 2 hbef sampleP5 hf hb2
  · exact (waitList_fifo_drain sampleDefs).2 sampleP3 hre "p"

/-- C6: for a job with duplicate-free task names whose dependencies stay
within the job and are acyclic (witnessed by a measure), the result of
`sortTasksByDependencies` is a permutation of the tasks in which the Kahn
ordinal of every task exceeds the ordinals of all its dependencies, no task
precedes one of its dependencies, consecutive placement follows the
(ordinal, name-ascending) comparator — ties within a rank are broken by
name — and the result is invariant under permutations of the input, hence a
function of the task set alone and stable across restarts. -/
theorem sortTasksByDependencies_spec (jt : List JTask)
    (hnd : (jt.map (fun t => t.name)).Nodup)
    (hclosed : ∀ t ∈ jt, ∀ d ∈ t.dependsOn, d ∈ jt.map (fun t => t.name))
    (hacyc : ∃ f : String → Nat, ∀ t ∈ jt, ∀ d ∈ t.dependsOn, f d < f t.name) :
    List.Perm (sortTasksByDependencies jt) jt
    ∧ (∀ t ∈ jt, ∀ d ∈ t.dependsOn, kahnOrd jt d < kahnOrd jt t.name)
    ∧ List.Pairwise (fun x y => y.name ∉ x.dependsOn) (sortTasksByDependencies jt)
    ∧ List.Pairwise (taskLE (kahnOrd jt)) (sortTasksByDependencies jt)
    ∧ (∀ jt', List.Perm jt' jt → sortTasksByDependencies jt' = sortTasksByDependencies jt) := by
  obtain ⟨f, hf⟩ := hacyc
  have hedge := kahnOrd_edge jt hnd hclosed f hf
  have hperm : List.Perm (sortTasksByDependencies jt) jt := List.perm_insertionSort _ _
  have hsorted : List.Pairwise (taskLE (kahnOrd jt)) (sortTasksByDependencies jt) :=
    List.sorted_insertionSort _ _
  have hdep : List.Pairwise (fun x y => y.name ∉ x.dependsOn)
      (sortTasksByDependencies jt) := by
    refine List.Pairwise.imp_of_mem ?_ hsorted
    intro x y hx hy hxy hcon
    have hxjt : x ∈ jt := hperm.mem_iff.mp hx
    have hlt := hedge x hxjt y.name hcon
    unfold taskLE at hxy
    rcases hxy with h1 | ⟨h1, _⟩
    · omega
    · omega
  exact ⟨hperm, hedge, hdep, hsorted, fun jt' hp => sortTasksByDependencies_perm_eq hp hnd⟩

/-- C6 witness: the two-task fixture (`b` depends on `a`, listed in reverse)
satisfies the hypotheses, and the theorem instantiates to it. -/
theorem sortTasksByDependencies_spec_witness :
    (sampleJTasks.map (fun t => t.name)).Nodup
    ∧ (∀ t ∈ sampleJTasks, ∀ d ∈ t.dependsOn, d ∈ sampleJTasks.map (fun t => t.name))
    ∧ List.Perm (sortTasksByDependencies sampleJTasks) sampleJTasks
    ∧ (∀ t ∈ sampleJTasks, ∀ d ∈ t.dependsOn,
        kahnOrd sampleJTasks d < kahnOrd sampleJTasks t.name)
    ∧ List.Pairwise (fun x y => y.name ∉ x.dependsOn)
        (sortTasksByDependencies sampleJTasks)
    ∧ List.Pairwise (taskLE (kahnOrd sampleJTasks)) (sortTasksByDependencies sampleJTasks)
    ∧ (∀ jt', List.Perm jt' sampleJTasks →
        sortTasksByDependencies jt' = sortTasksByDependencies sampleJTasks) := by
  have hnd : (sampleJTasks.map (fun t => t.name)).Nodup := by decide
  have hclosed : ∀ t ∈ sampleJTasks, ∀ d ∈ t.dependsOn,
      d ∈ sampleJTasks.map (fun t => t.name) := by decide
  have hacyc : ∃ f : String → Nat, ∀ t ∈ sampleJTasks, ∀ d ∈ t.dependsOn,
      f d < f t.name := ⟨fun s => if s = "a" then 0 else 1, by decide⟩
  obtain ⟨h1, h2, h3, h4, h5⟩ := sortTasksByDependencies_spec sampleJTasks hnd hclosed hacyc
  exact ⟨hnd, hclosed, h1, h2, h3, h4, h5⟩

end Prunner
